import Mathlib

/-!
Verification of the opa-rs wasm-hosted evaluator runtime.

This file is a shallow embedding, in Lean 4, of the parts of the
repository that the specification talks about:

* the dynamically typed value model (`value/number.rs`, `value/mod.rs`);
* the arithmetic built-in functions (`builtins/numbers.rs`);
* the array and regex built-ins (`builtins/arrays.rs`, `builtins/regex.rs`);
* the built-in registry and dispatcher (`builtins/mod.rs`);
* the heap codec (`opa_serde/ser.rs`, `opa_serde/de.rs`);
* the policy facade (`lib.rs`).

Machine integers are modelled as `Int` with explicit wrap-around where the
Rust code can overflow, and 64-bit IEEE floats are modelled by a small
symbolic type `F64` that distinguishes finite values (represented exactly
as rationals), the two infinities and NaN, which is all the float
structure the runtime inspects.
-/

namespace Opa

instance {e a : Type} [DecidableEq e] [DecidableEq a] : DecidableEq (Except e a) := fun x y =>
  match x, y with
  | .ok v, .ok w =>
      if h : v = w then .isTrue (by rw [h])
      else .isFalse (by intro hc; cases hc; exact h rfl)
  | .error v, .error w =>
      if h : v = w then .isTrue (by rw [h])
      else .isFalse (by intro hc; cases hc; exact h rfl)
  | .ok _, .error _ => .isFalse (by intro hc; cases hc)
  | .error _, .ok _ => .isFalse (by intro hc; cases hc)

/-! ## 64-bit integers

Rust `i64` values are modelled as unbounded `Int` together with an explicit
wrap-around function. Arithmetic mirrors release-mode Rust: `+`, `-`, `*`
wrap, while `/` and `%` panic on a zero divisor and on `i64::MIN / -1`. -/

def i64Min : Int := -(2 ^ 63)

def i64Max : Int := 2 ^ 63 - 1

/-- Interpret an integer modulo `2 ^ 64` as a signed 64-bit value. -/
def wrap64 (i : Int) : Int :=
  (i + 2 ^ 63) % 2 ^ 64 - 2 ^ 63

def i64Add (a b : Int) : Int := wrap64 (a + b)

def i64Sub (a b : Int) : Int := wrap64 (a - b)

def i64Mul (a b : Int) : Int := wrap64 (a * b)

/-- Rust division on `i64` truncates toward zero; a zero divisor or
`i64::MIN / -1` panics, which we model by `none`. -/
def i64Div (a b : Int) : Option Int :=
  if b = 0 then none
  else if a = i64Min ∧ b = -1 then none
  else some (Int.tdiv a b)

/-- Rust `%` on `i64` takes the sign of the dividend; a zero divisor or
`i64::MIN % -1` panics, which we model by `none`. -/
def i64Rem (a b : Int) : Option Int :=
  if b = 0 then none
  else if a = i64Min ∧ b = -1 then none
  else some (Int.tmod a b)

/-! ## A symbolic model of IEEE 754 binary64

The runtime never does bit-level float work: it stores `f64` values, adds,
subtracts, multiplies, divides and takes remainders, and asks whether a
value is finite. `F64` captures exactly that structure. Finite values are
carried as exact rationals; the claims in this development only ever look
at the finite/NaN/infinite distinction and at values (such as `1.0 / 0.0`)
on which IEEE arithmetic is exact. -/

inductive F64 where
  | finite (q : Rat)
  | posInf
  | negInf
  | nan
  deriving DecidableEq, Repr

namespace F64

def isFinite : F64 → Bool
  | finite _ => true
  | _ => false

/-- IEEE addition on the symbolic values. -/
def add : F64 → F64 → F64
  | finite a, finite b => finite (a + b)
  | finite _, posInf => posInf
  | finite _, negInf => negInf
  | posInf, finite _ => posInf
  | negInf, finite _ => negInf
  | posInf, posInf => posInf
  | negInf, negInf => negInf
  | posInf, negInf => nan
  | negInf, posInf => nan
  | _, _ => nan

/-- IEEE subtraction on the symbolic values. -/
def sub : F64 → F64 → F64
  | finite a, finite b => finite (a - b)
  | finite _, posInf => negInf
  | finite _, negInf => posInf
  | posInf, finite _ => posInf
  | negInf, finite _ => negInf
  | posInf, negInf => posInf
  | negInf, posInf => negInf
  | posInf, posInf => nan
  | negInf, negInf => nan
  | _, _ => nan

/-- IEEE multiplication on the symbolic values. -/
def mul : F64 → F64 → F64
  | finite a, finite b => finite (a * b)
  | finite a, posInf => if a = 0 then nan else if a > 0 then posInf else negInf
  | finite a, negInf => if a = 0 then nan else if a > 0 then negInf else posInf
  | posInf, finite b => if b = 0 then nan else if b > 0 then posInf else negInf
  | negInf, finite b => if b = 0 then nan else if b > 0 then negInf else posInf
  | posInf, posInf => posInf
  | negInf, negInf => posInf
  | posInf, negInf => negInf
  | negInf, posInf => negInf
  | _, _ => nan

/-- IEEE division on the symbolic values. The finite zero is the positive
zero, so `x / 0.0` is `±∞` for nonzero finite `x` and `0.0 / 0.0` is NaN. -/
def div : F64 → F64 → F64
  | finite a, finite b =>
      if b = 0 then
        if a = 0 then nan else if a > 0 then posInf else negInf
      else finite (a / b)
  | finite _, posInf => finite 0
  | finite _, negInf => finite 0
  | posInf, finite b => if b ≥ 0 then posInf else negInf
  | negInf, finite b => if b ≥ 0 then negInf else posInf
  | _, _ => nan

/-- IEEE remainder (the Rust `%` on floats): NaN when the divisor is zero
or the dividend is infinite. -/
def rem : F64 → F64 → F64
  | finite a, finite b =>
      if b = 0 then nan
      else finite (a - b * Rat.floor (a / b))
  | finite a, posInf => finite a
  | finite a, negInf => finite a
  | _, _ => nan

end F64

/-! ## The value model

`value/number.rs` defines `Number` as a private enum `N` with `Int`,
`Float` and `Ref` (lexical decimal string) variants; `value/mod.rs`
defines the tagged `Value` union. We flatten the single-field `Number`
struct into its payload enum. `Map<K, V>` is `BTreeMap` and `Set<V>` is
`BTreeSet`; we model both by their ordered entry lists. -/

/-- Rust `str::parse::<i64>`: an optional sign followed by at least one
decimal digit, with a 64-bit range check. -/
def parseI64 (s : String) : Option Int :=
  let core (neg : Bool) (digits : List Char) : Option Int :=
    if digits.isEmpty ∨ ¬ digits.all Char.isDigit then none
    else
      let n : Nat := digits.foldl (fun acc c => acc * 10 + (c.toNat - '0'.toNat)) 0
      let i : Int := if neg then -(n : Int) else (n : Int)
      if i64Min ≤ i ∧ i ≤ i64Max then some i else none
  match s.toList with
  | '+' :: rest => core false rest
  | '-' :: rest => core true rest
  | rest => core false rest

/-- Rust `str::parse::<f64>` restricted to plain decimal literals
(optional sign, digits, optional fraction): enough to give the lexical
`Ref` variant its parsing behavior. Values it accepts are finite. -/
def parseF64 (s : String) : Option F64 :=
  let digitsVal (ds : List Char) : Rat :=
    ds.foldl (fun acc c => acc * 10 + ((c.toNat - '0'.toNat : Nat) : Rat)) 0
  let fracVal (ds : List Char) : Rat :=
    (ds.reverse.foldl (fun acc c => (acc + ((c.toNat - '0'.toNat : Nat) : Rat)) / 10) 0)
  let core (neg : Bool) (cs : List Char) : Option F64 :=
    let intPart := cs.takeWhile Char.isDigit
    let rest := cs.dropWhile Char.isDigit
    match rest with
    | [] =>
        if intPart.isEmpty then none
        else
          let q := digitsVal intPart
          some (F64.finite (if neg then -q else q))
    | '.' :: frac =>
        if (intPart.isEmpty ∧ frac.isEmpty) ∨ ¬ frac.all Char.isDigit then none
        else
          let q := digitsVal intPart + fracVal frac
          some (F64.finite (if neg then -q else q))
    | _ => none
  match s.toList with
  | '+' :: rest => core false rest
  | '-' :: rest => core true rest
  | rest => core false rest

inductive Number where
  | int (i : Int)
  | float (f : F64)
  | ref (s : String)
  deriving DecidableEq, Repr

namespace Number

/-- `Number::is_i64`: the `Ref` variant introspects by parsing. -/
def is_i64 : Number → Bool
  | int _ => true
  | float _ => false
  | ref s => (parseI64 s).isSome

/-- `Number::as_i64`. -/
def as_i64 : Number → Option Int
  | int n => some n
  | float _ => none
  | ref s => parseI64 s

/-- `Number::as_f64`. -/
def as_f64 : Number → Option F64
  | int n => some (F64.finite (n : Rat))
  | float f => some f
  | ref s => parseF64 s

/-- `Number::from_f64`: rejects non-finite floats. -/
def from_f64 (f : F64) : Option Number :=
  if f.isFinite then some (float f) else none

end Number

inductive Value where
  | null
  | bool (b : Bool)
  | number (n : Number)
  | string (s : String)
  | array (vs : List Value)
  | object (entries : List (String × Value))
  | set (elems : List Value)

mutual

def Value.beq : Value → Value → Bool
  | .null, .null => true
  | .bool a, .bool b => a == b
  | .number a, .number b => a == b
  | .string a, .string b => a == b
  | .array a, .array b => Value.listBeq a b
  | .object a, .object b => Value.entriesBeq a b
  | .set a, .set b => Value.listBeq a b
  | _, _ => false

def Value.listBeq : List Value → List Value → Bool
  | [], [] => true
  | a :: as, b :: bs => Value.beq a b && Value.listBeq as bs
  | _, _ => false

def Value.entriesBeq : List (String × Value) → List (String × Value) → Bool
  | [], [] => true
  | (k, v) :: as, (k2, v2) :: bs => k == k2 && Value.beq v v2 && Value.entriesBeq as bs
  | _, _ => false

end

mutual

theorem Value.beq_iff : ∀ a b : Value, Value.beq a b = true ↔ a = b
  | .null, .null => by simp [Value.beq]
  | .bool a, .bool b => by simp [Value.beq]
  | .number a, .number b => by simp [Value.beq, beq_iff_eq]
  | .string a, .string b => by simp [Value.beq]
  | .array a, .array b => by
      simp only [Value.beq, Value.listBeq_iff a b]
      exact ⟨fun h => by rw [h], fun h => by injection h⟩
  | .object a, .object b => by
      simp only [Value.beq, Value.entriesBeq_iff a b]
      exact ⟨fun h => by rw [h], fun h => by injection h⟩
  | .set a, .set b => by
      simp only [Value.beq, Value.listBeq_iff a b]
      exact ⟨fun h => by rw [h], fun h => by injection h⟩
  | .null, .bool _ | .null, .number _ | .null, .string _ | .null, .array _
  | .null, .object _ | .null, .set _ => by simp [Value.beq]
  | .bool _, .null | .bool _, .number _ | .bool _, .string _ | .bool _, .array _
  | .bool _, .object _ | .bool _, .set _ => by simp [Value.beq]
  | .number _, .null | .number _, .bool _ | .number _, .string _ | .number _, .array _
  | .number _, .object _ | .number _, .set _ => by simp [Value.beq]
  | .string _, .null | .string _, .bool _ | .string _, .number _ | .string _, .array _
  | .string _, .object _ | .string _, .set _ => by simp [Value.beq]
  | .array _, .null | .array _, .bool _ | .array _, .number _ | .array _, .string _
  | .array _, .object _ | .array _, .set _ => by simp [Value.beq]
  | .object _, .null | .object _, .bool _ | .object _, .number _ | .object _, .string _
  | .object _, .array _ | .object _, .set _ => by simp [Value.beq]
  | .set _, .null | .set _, .bool _ | .set _, .number _ | .set _, .string _
  | .set _, .array _ | .set _, .object _ => by simp [Value.beq]

theorem Value.listBeq_iff : ∀ a b : List Value, Value.listBeq a b = true ↔ a = b
  | [], [] => by simp [Value.listBeq]
  | [], _ :: _ => by simp [Value.listBeq]
  | _ :: _, [] => by simp [Value.listBeq]
  | a :: as, b :: bs => by
      simp only [Value.listBeq, Bool.and_eq_true, Value.beq_iff a b,
        Value.listBeq_iff as bs, List.cons.injEq]

theorem Value.entriesBeq_iff :
    ∀ a b : List (String × Value), Value.entriesBeq a b = true ↔ a = b
  | [], [] => by simp [Value.entriesBeq]
  | [], _ :: _ => by simp [Value.entriesBeq]
  | _ :: _, [] => by simp [Value.entriesBeq]
  | (k, v) :: as, (k2, v2) :: bs => by
      simp only [Value.entriesBeq, Bool.and_eq_true, beq_iff_eq, Value.beq_iff v v2,
        Value.entriesBeq_iff as bs, List.cons.injEq, Prod.mk.injEq, and_assoc]

end

instance : DecidableEq Value := fun a b =>
  decidable_of_iff (Value.beq a b = true) (Value.beq_iff a b)

/-! Errors of the crate-level `Error` enum (`error.rs`), restricted to the
variants the verified functions can produce. `InvalidRegex` carries the
message of the regex compilation error. -/

inductive Error where
  | initialization
  | invalidType (expected : String) (observed : Value)
  | unknownBuiltin (name : String)
  | unknownBuiltinId (id : Int)
  | invalidRegex (msg : String)
  deriving DecidableEq

namespace Value

/-- `Value::is_i64`. -/
def is_i64 : Value → Bool
  | number n => n.is_i64
  | _ => false

/-- `Number::try_into_i64` lifted through `Value::try_into_i64`. -/
def try_into_i64 : Value → Except Error Int
  | number (Number.int n) => .ok n
  | number (Number.float f) => .error (.invalidType "i64" (number (Number.float f)))
  | number (Number.ref s) =>
      match parseI64 s with
      | some n => .ok n
      | none => .error (.invalidType "i64" (number (Number.ref s)))
  | v => .error (.invalidType "i64" v)

/-- `Number::try_into_f64` lifted through `Value::try_into_f64`. -/
def try_into_f64 : Value → Except Error F64
  | number (Number.int n) => .ok (F64.finite (n : Rat))
  | number (Number.float f) => .ok f
  | number (Number.ref s) =>
      match parseF64 s with
      | some f => .ok f
      | none => .error (.invalidType "f64" (number (Number.ref s)))
  | v => .error (.invalidType "f64" v)

/-- `Value::try_into_array`. -/
def try_into_array : Value → Except Error (List Value)
  | array vs => .ok vs
  | v => .error (.invalidType "array" v)

/-- `Value::try_into_string`. -/
def try_into_string : Value → Except Error String
  | string s => .ok s
  | v => .error (.invalidType "string" v)

/-- `Value::try_into_object`. -/
def try_into_object : Value → Except Error (List (String × Value))
  | object m => .ok m
  | v => .error (.invalidType "object" v)

end Value

/-! ## Arithmetic built-ins (`builtins/numbers.rs`)

The `binary_op!` macro expands, for each operator, to the same match:
an integer fast path guarded by `is_i64` on both operands, a float path
for any other pair of numbers, and `InvalidType("number", a)` otherwise.
A Rust panic (integer division by zero, or `i64::MIN / -1`) has no value
to return, so the outcome type has a third alternative for it. -/

inductive BOutcome where
  | ok (v : Value)
  | err (e : Error)
  | panics
  deriving DecidableEq

namespace BOutcome

def ofExcept : Except Error Value → BOutcome
  | .ok v => ok v
  | .error e => err e

end BOutcome

namespace builtins

/-- The body generated by the `binary_op!` macro, parameterized by the
integer and float interpretations of the operator. The integer operation
returns `none` exactly when the Rust expression would panic. -/
def binary_op (iop : Int → Int → Option Int) (fop : F64 → F64 → F64)
    (left right : Value) : BOutcome :=
  if left.is_i64 ∧ right.is_i64 then
    match left.try_into_i64 with
    | .error e => .err e
    | .ok a =>
      match right.try_into_i64 with
      | .error e => .err e
      | .ok b =>
        match iop a b with
        | none => .panics
        | some r => .ok (.number (.int r))
  else
    match left, right with
    | .number ln, .number rn =>
      match (Value.number ln).try_into_f64 with
      | .error e => .err e
      | .ok a =>
        match (Value.number rn).try_into_f64 with
        | .error e => .err e
        | .ok b => .ok (.number (.float (fop a b)))
    | a, _ => .err (.invalidType "number" a)

def plus (l r : Value) : BOutcome := binary_op (fun a b => some (i64Add a b)) F64.add l r

def mul (l r : Value) : BOutcome := binary_op (fun a b => some (i64Mul a b)) F64.mul l r

def div (l r : Value) : BOutcome := binary_op i64Div F64.div l r

def rem (l r : Value) : BOutcome := binary_op i64Rem F64.rem l r

/-- List-based model of `BTreeSet::difference(..).cloned().collect()`:
the elements of `left` that are not members of `right`, in order. -/
def setDifference (left right : List Value) : List Value :=
  left.filter (fun v => ! right.contains v)

/-- `minus` is written out by hand in the source: the two number arms of
`binary_op!`, plus an extra `(Set, Set)` arm computing set difference. -/
def minus (left right : Value) : BOutcome :=
  if left.is_i64 ∧ right.is_i64 then
    match left.try_into_i64 with
    | .error e => .err e
    | .ok a =>
      match right.try_into_i64 with
      | .error e => .err e
      | .ok b => .ok (.number (.int (i64Sub a b)))
  else
    match left, right with
    | .number ln, .number rn =>
      match (Value.number ln).try_into_f64 with
      | .error e => .err e
      | .ok a =>
        match (Value.number rn).try_into_f64 with
        | .error e => .err e
        | .ok b => .ok (.number (.float (F64.sub a b)))
    | .set ls, .set rs => .ok (.set (setDifference ls rs))
    | a, _ => .err (.invalidType "number" a)

/-- `array.slice` from `builtins/arrays.rs`: empty result when
`start >= end` or both bounds are negative, otherwise the Rust range
`array[clamped_start..clamped_end]`. -/
def slice (val start stop : Value) : Except Error Value := do
  let array ← val.try_into_array
  let start ← start.try_into_i64
  let stop ← stop.try_into_i64
  if start ≥ stop ∨ (start < 0 ∧ stop < 0) then
    pure (Value.array [])
  else
    let len := array.length
    let s := min (max start 0).toNat len
    let e := min (max stop 0).toNat len
    pure (Value.array ((array.drop s).take (e - s)))

end builtins

/-- Written from the words of the specification, for comparison with
`builtins.slice`: clamp both indices into `[0, len]` and take the
subsequence between them, with the empty-result guard stated first. -/
def sliceSpec (vs : List Value) (start stop : Int) : List Value :=
  if start ≥ stop ∨ (start < 0 ∧ stop < 0) then []
  else
    let clamp : Int → Nat := fun i => (min (max i 0) (vs.length : Int)).toNat
    (vs.drop (clamp start)).take (clamp stop - clamp start)

/-- `Value::is_number`. -/
def Value.is_number : Value → Bool
  | .number _ => true
  | _ => false

/-- The five arithmetic built-ins registered in `builtins/mod.rs`. -/
def arithOps : List (Value → Value → BOutcome) :=
  [builtins.plus, builtins.minus, builtins.mul, builtins.div, builtins.rem]

section ArithClaims

open builtins

/-- C3: for each arithmetic built-in, two integer operands can only
produce an integer number (integer division by zero produces no value at
all, it panics, and never an error); an integer mixed with a float, or two
floats, produce a float number; `minus` on two sets is their set
difference; and the other four built-ins reject set operands with
`InvalidType("number", observed)`. -/
theorem arith_numeric_lattice :
    (∀ op ∈ arithOps, ∀ (i j : Int) (v : Value),
      op (.number (.int i)) (.number (.int j)) = .ok v → ∃ k : Int, v = .number (.int k))
    ∧ (∀ op ∈ arithOps, ∀ (i : Int) (y : F64),
      ∃ g : F64, op (.number (.int i)) (.number (.float y)) = .ok (.number (.float g)))
    ∧ (∀ op ∈ arithOps, ∀ (x : F64) (j : Int),
      ∃ g : F64, op (.number (.float x)) (.number (.int j)) = .ok (.number (.float g)))
    ∧ (∀ op ∈ arithOps, ∀ x y : F64,
      ∃ g : F64, op (.number (.float x)) (.number (.float y)) = .ok (.number (.float g)))
    ∧ (∀ ls rs : List Value,
      builtins.minus (.set ls) (.set rs) = .ok (.set (builtins.setDifference ls rs)))
    ∧ (∀ op ∈ [builtins.plus, builtins.mul, builtins.div, builtins.rem],
      ∀ ls rs : List Value,
      op (.set ls) (.set rs) = .err (.invalidType "number" (.set ls))) := by
  refine ⟨?_, ?_, ?_, ?_, ?_, ?_⟩
  · intro op hop i j v hv
    fin_cases hop <;>
      simp only [binary_op, plus, minus, mul, div, rem, Value.is_i64, Number.is_i64,
        Value.try_into_i64, and_self, if_true] at hv
    case _ => cases hv; exact ⟨_, rfl⟩
    case _ => cases hv; exact ⟨_, rfl⟩
    case _ => cases hv; exact ⟨_, rfl⟩
    case _ =>
      rcases h : i64Div i j with _ | k <;> rw [h] at hv
      · cases hv
      · cases hv; exact ⟨k, rfl⟩
    case _ =>
      rcases h : i64Rem i j with _ | k <;> rw [h] at hv
      · cases hv
      · cases hv; exact ⟨k, rfl⟩
  · intro op hop i y
    fin_cases hop <;> exact ⟨_, rfl⟩
  · intro op hop x j
    fin_cases hop <;> exact ⟨_, rfl⟩
  · intro op hop x y
    fin_cases hop <;> exact ⟨_, rfl⟩
  · intro ls rs
    simp [minus, Value.is_i64]
  · intro op hop ls rs
    fin_cases hop <;> simp [binary_op, plus, mul, div, rem, Value.is_i64]

/-- C3 witness: the lattice at concrete operands. -/
theorem arith_numeric_lattice_witness :
    (∃ k : Int, Value.number (.int 5) = Value.number (.int k))
    ∧ (∃ g : F64, builtins.div (.number (.int 1)) (.number (.float (F64.finite 2)))
        = .ok (.number (.float g))) :=
  ⟨arith_numeric_lattice.1 builtins.plus (by simp [arithOps]) 2 3 (.number (.int 5))
      (by simp [builtins.plus, builtins.binary_op, Value.is_i64, Number.is_i64,
        Value.try_into_i64]; rfl),
    arith_numeric_lattice.2.1 builtins.div (by simp [arithOps]) 1 (F64.finite 2)⟩

/-- C2 counterexample: the claim says a zero divisor and a non-finite
float result each produce `InvalidType("number", observed)`, but
`div(1.0, 0.0)` returns the value `+∞` as an ordinary float number, and
integer `div(1, 0)` panics instead of returning any error. -/
theorem arith_invalid_type_counterexample :
    builtins.div (.number (.float (F64.finite 1))) (.number (.float (F64.finite 0)))
      = .ok (.number (.float F64.posInf))
    ∧ builtins.div (.number (.int 1)) (.number (.int 0)) = .panics := by
  constructor
  · simp [builtins.div, builtins.binary_op, Value.is_i64, Number.is_i64,
      Value.try_into_f64, F64.div]
  · simp [builtins.div, builtins.binary_op, Value.is_i64, Number.is_i64,
      Value.try_into_i64, i64Div]

/-- C2 amended: only operand types outside the number lattice produce
`InvalidType("number", observed)` (with the left operand as the observed
value, and sets excepted for `minus`); integer division and remainder by
zero panic; a float operation returns its IEEE result as a float number
even when that result is NaN or infinite. -/
theorem arith_invalid_type :
    (∀ op ∈ arithOps, ∀ l r : Value, ¬ l.is_number →
      (∀ ls rs, l = .set ls → r = .set rs → op ≠ builtins.minus) →
      op l r = .err (.invalidType "number" l))
    ∧ (∀ op ∈ arithOps, ∀ (n : Number) (r : Value), ¬ r.is_number → ¬ r.is_i64 →
      op (.number n) r = .err (.invalidType "number" (.number n)))
    ∧ (∀ i : Int, builtins.div (.number (.int i)) (.number (.int 0)) = .panics)
    ∧ (∀ i : Int, builtins.rem (.number (.int i)) (.number (.int 0)) = .panics)
    ∧ (∀ x y : F64, builtins.div (.number (.float x)) (.number (.float y))
        = .ok (.number (.float (F64.div x y)))) := by
  refine ⟨?_, ?_, ?_, ?_, ?_⟩
  · intro op hop l r hl hset
    fin_cases hop
    case _ =>
      cases l <;> simp_all [builtins.binary_op, builtins.plus, Value.is_i64,
        Value.is_number]
    case _ =>
      cases l <;> simp_all [builtins.minus, Value.is_i64, Value.is_number]
    case _ =>
      cases l <;> simp_all [builtins.binary_op, builtins.mul, Value.is_i64,
        Value.is_number]
    case _ =>
      cases l <;> simp_all [builtins.binary_op, builtins.div, Value.is_i64,
        Value.is_number]
    case _ =>
      cases l <;> simp_all [builtins.binary_op, builtins.rem, Value.is_i64,
        Value.is_number]
  · intro op hop n r hr hri
    fin_cases hop <;>
      cases r <;>
        simp_all [builtins.binary_op, builtins.plus, builtins.minus, builtins.mul,
          builtins.div, builtins.rem, Value.is_i64, Value.is_number]
  · intro i
    simp [builtins.div, builtins.binary_op, Value.is_i64, Number.is_i64,
      Value.try_into_i64, i64Div]
  · intro i
    simp [builtins.rem, builtins.binary_op, Value.is_i64, Number.is_i64,
      Value.try_into_i64, i64Rem]
  · intro x y
    simp [builtins.div, builtins.binary_op, Value.is_i64, Number.is_i64,
      Value.try_into_f64]

/-- C2 amended witness: concrete instances of each conjunct. -/
theorem arith_invalid_type_witness :
    builtins.plus (.string "a") (.number (.int 1))
      = .err (.invalidType "number" (.string "a"))
    ∧ builtins.div (.number (.int 7)) (.number (.int 0)) = .panics :=
  ⟨arith_invalid_type.1 builtins.plus (by simp [arithOps]) (.string "a")
      (.number (.int 1)) (by simp [Value.is_number])
      (fun ls rs h => by cases h),
    arith_invalid_type.2.2.1 7⟩

end ArithClaims

section SliceClaims

/-- C7: `array.slice` returns the empty array when `start ≥ end` or both
bounds are negative, and otherwise the subsequence between the two bounds
clamped into `[0, len]`; in particular the four concrete slices from the
specification. -/
theorem slice_clamps :
    (∀ (vs : List Value) (s e : Int),
      builtins.slice (.array vs) (.number (.int s)) (.number (.int e))
        = .ok (.array (sliceSpec vs s e)))
    ∧ (∀ a b c : Value,
      builtins.slice (.array [a, b, c]) (.number (.int (-1))) (.number (.int 2))
          = .ok (.array [a, b])
      ∧ builtins.slice (.array [a, b, c]) (.number (.int 2)) (.number (.int 2))
          = .ok (.array [])
      ∧ builtins.slice (.array [a, b, c]) (.number (.int (-2))) (.number (.int (-1)))
          = .ok (.array [])
      ∧ builtins.slice (.array [a, b, c]) (.number (.int 1)) (.number (.int 100))
          = .ok (.array [b, c])) := by
  constructor
  · intro vs s e
    simp only [builtins.slice, sliceSpec, Value.try_into_array, Value.try_into_i64,
      bind, Except.bind, pure, Except.pure]
    split
    · rfl
    · have h1 : (min (max s 0) (vs.length : Int)).toNat = min (max s 0).toNat vs.length := by
        omega
      have h2 : (min (max e 0) (vs.length : Int)).toNat = min (max e 0).toNat vs.length := by
        omega
      simp [h1, h2]
  · intro a b c
    refine ⟨?_, ?_, ?_, ?_⟩ <;>
      simp [builtins.slice, Value.try_into_array, Value.try_into_i64, bind,
        Except.bind, pure, Except.pure, List.drop, List.take]

end SliceClaims

/-! ## The built-in registry and dispatcher (`builtins/mod.rs`)

`BUILTIN_NAMES` is the union of the keys of the five static arity maps.
`Inner::new` decodes the object returned by the guest `builtins()` export
into a `HashMap<i32, String>`; the `builtinN` adapters look the function
up, decode the arguments, call it and encode the result, with the `btry!`
macro turning every error into a logged return of `ValueAddr(0)`. -/

/-- Interpret an integer modulo `2 ^ 32` as a signed 32-bit value: the
`v as i32` cast in `Inner::new`. -/
def wrap32 (i : Int) : Int :=
  (i + 2 ^ 31) % 2 ^ 32 - 2 ^ 31

/-- The union of the keys of `BUILTIN0` .. `BUILTIN4`. -/
def BUILTIN_NAMES : List String :=
  ["time.now_ns",
   "trace", "all", "any", "count", "max", "min", "product", "sort", "sum",
   "abs", "round", "net.cidr_expand", "upper",
   "time.clock", "time.date", "time.parse_rfc3339_ns", "time.weekday",
   "is_array", "is_boolean", "is_null", "is_number", "is_object", "is_set",
   "is_string", "type_name",
   "array.concat", "plus", "minus", "mul", "div", "rem",
   "net.cidr_contains", "net.cidr_intersects", "object.remove", "re_match",
   "and", "or",
   "array.slice", "object.get"]

/-- `HashMap::insert` on the id lookup map, modelled on an association
list with unique keys: an existing binding of the key is replaced. -/
def hmInsert (m : List (Int × String)) (k : Int) (v : String) : List (Int × String) :=
  (m.filter (fun p => p.1 ≠ k)) ++ [(k, v)]

/-- `HashMap::get` on the id lookup map. -/
def hmGet (m : List (Int × String)) (k : Int) : Option String :=
  (m.find? (fun p => p.1 = k)).map (fun p => p.2)

/-- The loop body of `Inner::new`: walk the decoded `builtins()` object
(a `BTreeMap`, so entries arrive in ascending key order), reject unknown
names, convert each id with `try_into_i64` and the `as i32` cast, and
insert into the id lookup map. -/
def innerNewLoop :
    List (String × Value) → List (Int × String) → Except Error (List (Int × String))
  | [], lookup => .ok lookup
  | (k, v) :: rest, lookup =>
      if ¬ BUILTIN_NAMES.contains k then .error (.unknownBuiltin k)
      else
        match v.try_into_i64 with
        | .error e => .error e
        | .ok id => innerNewLoop rest (hmInsert lookup (wrap32 id) k)

/-- `Inner::new`, starting from the already decoded `builtins()` object. -/
def innerNew (entries : List (String × Value)) : Except Error (List (Int × String)) :=
  innerNewLoop entries []

section RegistryClaims

/-- C4 counterexample: with the guest `builtins()` object
`{"minus": 1, "plus": 1}` (both names known, both ids well-formed) the
id lookup map retains only `"plus"`: the second insert overwrites the
first, so the map does not cover exactly the keys of the object. -/
theorem builtins_table_counterexample :
    innerNew [("minus", .number (.int 1)), ("plus", .number (.int 1))]
        = .ok [((1 : Int), "plus")]
    ∧ "minus" ∈ ([("minus", Value.number (.int 1)), ("plus", Value.number (.int 1))].map
        Prod.fst)
    ∧ "minus" ∉ ([((1 : Int), "plus")].map Prod.snd) := by
  refine ⟨?_, by simp, by simp⟩
  rfl

/-- C4 amended: any unknown name in the `builtins()` object fails
initialization with `UnknownBuiltin` on the first such name; when every
name is known and every id decodes as an integer, initialization succeeds
and produces the map pairing the `i32`-truncated id of each entry with its
name, which covers exactly the object keys provided the truncated ids are
pairwise distinct. -/
theorem builtins_table :
    (∀ (pre : List (String × Value)) (k : String) (v : Value)
        (post : List (String × Value)),
      (∀ p ∈ pre, p.1 ∈ BUILTIN_NAMES) → k ∉ BUILTIN_NAMES →
      (∀ p ∈ pre, ∃ i : Int, p.2 = .number (.int i)) →
      innerNew (pre ++ (k, v) :: post) = .error (.unknownBuiltin k))
    ∧ (∀ entries : List (String × Int),
      (∀ p ∈ entries, p.1 ∈ BUILTIN_NAMES) →
      (entries.map (fun p => wrap32 p.2)).Nodup →
      innerNew (entries.map (fun p => (p.1, .number (.int p.2))))
          = .ok (entries.map (fun p => (wrap32 p.2, p.1)))
        ∧ ((entries.map (fun p => (wrap32 p.2, p.1))).map Prod.snd
            = entries.map Prod.fst)) := by
  constructor
  · intro pre k v post hpre hk hint
    suffices h : ∀ lookup, innerNewLoop (pre ++ (k, v) :: post) lookup
        = .error (.unknownBuiltin k) by
      exact h []
    induction pre with
    | nil =>
        intro lookup
        simp only [List.nil_append, innerNewLoop]
        rw [if_pos]
        simpa using hk
    | cons p rest ih =>
        intro lookup
        obtain ⟨i, hi⟩ := hint p (by simp)
        have hmem : p.1 ∈ BUILTIN_NAMES := hpre p (by simp)
        cases p with
        | mk k1 v1 =>
            have hi2 : v1 = Value.number (.int i) := hi
            simp only [List.cons_append, innerNewLoop]
            rw [if_neg, hi2]
            · simp only [Value.try_into_i64]
              exact ih (fun q hq => hpre q (by simp [hq]))
                (fun q hq => hint q (by simp [hq])) _
            · simpa using hmem
  · intro entries hnames hids
    have main : ∀ (es : List (String × Int)) (lookup : List (Int × String)),
        (∀ p ∈ es, p.1 ∈ BUILTIN_NAMES) →
        (es.map (fun p => wrap32 p.2)).Nodup →
        (∀ p ∈ lookup, ∀ q ∈ es, p.1 ≠ wrap32 q.2) →
        innerNewLoop (es.map (fun p => (p.1, .number (.int p.2)))) lookup
          = .ok (lookup ++ es.map (fun p => (wrap32 p.2, p.1))) := by
      intro es
      induction es with
      | nil => intro lookup _ _ _; simp [innerNewLoop]
      | cons p rest ih =>
          intro lookup hn hd hfresh
          cases p with
          | mk k1 i1 =>
              have hd2 : (wrap32 i1 :: rest.map (fun p => wrap32 p.2)).Nodup := by
                simpa using hd
              obtain ⟨hhead, htail⟩ := List.nodup_cons.mp hd2
              simp only [List.map_cons, innerNewLoop]
              rw [if_neg (by simpa using hn (k1, i1) (by simp))]
              simp only [Value.try_into_i64]
              have hins : hmInsert lookup (wrap32 i1) k1 = lookup ++ [(wrap32 i1, k1)] := by
                unfold hmInsert
                congr 1
                apply List.filter_eq_self.mpr
                intro p hp
                simpa using hfresh p hp (k1, i1) (by simp)
              rw [hins, ih (lookup ++ [(wrap32 i1, k1)])
                (fun q hq => hn q (by simp [hq])) htail ?_]
              · simp
              · intro p hp q hq
                rcases List.mem_append.mp hp with h | h
                · exact hfresh p h q (by simp [hq])
                · simp only [List.mem_singleton] at h
                  subst h
                  simp only [ne_eq]
                  intro hcontra
                  exact hhead (List.mem_map.mpr ⟨q, hq, hcontra.symm⟩)
    refine ⟨?_, by simp⟩
    simpa using main entries [] hnames hids (by simp)

end RegistryClaims

/-! ## The dispatcher adapters

The `Builtins` facade holds `Arc<RefCell<Option<Inner>>>`; each imported
`builtinN` slot borrows it, fails with `Error::Initialization` when the
slot is still empty, and otherwise forwards to `Inner::builtinN`. The
static arity tables hold the host functions; the codec boundary
(`opa_serde::from_instance` / `opa_serde::to_instance` against the live
wasm instance) is carried as two fields of the model `Inner`. Addresses
are the `i32` payload of `ValueAddr`. -/

structure Tables where
  t0 : String → Option (Unit → Except Error Value)
  t1 : String → Option (Value → Except Error Value)
  t2 : String → Option (Value → Value → Except Error Value)
  t3 : String → Option (Value → Value → Value → Except Error Value)
  t4 : String → Option (Value → Value → Value → Value → Except Error Value)

structure Inner where
  lookup : List (Int × String)
  decode : Int → Except Error Value
  encode : Value → Except Error Int

namespace Inner

/-- `Inner::builtin1`, with every `btry!` expansion written as the match
it expands to: any error arm returns address `0`. The `ctx` address is
accepted and ignored. -/
def builtin1 (T : Tables) (inner : Inner) (id : Int) (_ctx : Int) (a : Int) : Int :=
  match hmGet inner.lookup id with
  | none => 0
  | some name =>
    match T.t1 name with
    | none => 0
    | some func =>
      match inner.decode a with
      | .error _ => 0
      | .ok val =>
        match func val with
        | .error _ => 0
        | .ok result =>
          match inner.encode result with
          | .error _ => 0
          | .ok addr => addr

/-- The same steps as `builtin1` joined in the error monad, so that
"some step of the callback failed" is one proposition. The two
`ok_or_else` lookups produce `UnknownBuiltinId` and `UnknownBuiltin`. -/
def builtin1Except (T : Tables) (inner : Inner) (id : Int) (a : Int) :
    Except Error Int := do
  let name ← match hmGet inner.lookup id with
    | some n => Except.ok n
    | none => Except.error (.unknownBuiltinId id)
  let func ← match T.t1 name with
    | some f => Except.ok f
    | none => Except.error (.unknownBuiltin name)
  let val ← inner.decode a
  let result ← func val
  inner.encode result

/-- `Inner::builtin2`. -/
def builtin2 (T : Tables) (inner : Inner) (id : Int) (_ctx : Int) (a b : Int) : Int :=
  match hmGet inner.lookup id with
  | none => 0
  | some name =>
    match T.t2 name with
    | none => 0
    | some func =>
      match inner.decode a with
      | .error _ => 0
      | .ok v1 =>
        match inner.decode b with
        | .error _ => 0
        | .ok v2 =>
          match func v1 v2 with
          | .error _ => 0
          | .ok result =>
            match inner.encode result with
            | .error _ => 0
            | .ok addr => addr

/-- The steps of `builtin2` in the error monad. -/
def builtin2Except (T : Tables) (inner : Inner) (id : Int) (a b : Int) :
    Except Error Int := do
  let name ← match hmGet inner.lookup id with
    | some n => Except.ok n
    | none => Except.error (.unknownBuiltinId id)
  let func ← match T.t2 name with
    | some f => Except.ok f
    | none => Except.error (.unknownBuiltin name)
  let v1 ← inner.decode a
  let v2 ← inner.decode b
  let result ← func v1 v2
  inner.encode result

end Inner

namespace Builtins

/-- `Builtins::builtin1`: `None` in the shared slot is the
`Error::Initialization` case of the outer `btry!`. -/
def builtin1 (T : Tables) (inner : Option Inner) (id : Int) (ctx : Int) (a : Int) : Int :=
  match inner with
  | none => 0
  | some inner => inner.builtin1 T id ctx a

/-- `Builtins::builtin2`. -/
def builtin2 (T : Tables) (inner : Option Inner) (id : Int) (ctx : Int) (a b : Int) : Int :=
  match inner with
  | none => 0
  | some inner => inner.builtin2 T id ctx a b

end Builtins

section DispatcherClaims

/-- `Inner::builtin1` is the collapse of its error-monad pipeline: the
result address on success, address 0 on any error. -/
theorem Inner.builtin1_eq (T : Tables) (inner : Inner) (id ctx a : Int) :
    Inner.builtin1 T inner id ctx a
      = (match Inner.builtin1Except T inner id a with
          | .ok addr => addr
          | .error _ => 0) := by
  unfold Inner.builtin1 Inner.builtin1Except
  simp only [bind, Except.bind]
  cases h1 : hmGet inner.lookup id with
  | none => simp
  | some name =>
    cases h2 : T.t1 name with
    | none => simp [h2]
    | some func =>
      cases h3 : inner.decode a with
      | error e => simp [h2, h3]
      | ok val =>
        cases h4 : func val with
        | error e => simp [h2, h3, h4]
        | ok result =>
          cases h5 : inner.encode result with
          | error e => simp [h2, h3, h4, h5]
          | ok addr => simp [h2, h3, h4, h5]

/-- `Inner::builtin2` is the collapse of its error-monad pipeline. -/
theorem Inner.builtin2_eq (T : Tables) (inner : Inner) (id ctx a b : Int) :
    Inner.builtin2 T inner id ctx a b
      = (match Inner.builtin2Except T inner id a b with
          | .ok addr => addr
          | .error _ => 0) := by
  unfold Inner.builtin2 Inner.builtin2Except
  simp only [bind, Except.bind]
  cases h1 : hmGet inner.lookup id with
  | none => simp
  | some name =>
    cases h2 : T.t2 name with
    | none => simp [h2]
    | some func =>
      cases h3 : inner.decode a with
      | error e => simp [h2, h3]
      | ok v1 =>
        cases h4 : inner.decode b with
        | error e => simp [h2, h3, h4]
        | ok v2 =>
          cases h5 : func v1 v2 with
          | error e => simp [h2, h3, h4, h5]
          | ok result =>
            cases h6 : inner.encode result with
            | error e => simp [h2, h3, h4, h5, h6]
            | ok addr => simp [h2, h3, h4, h5, h6]

/-- C5: no error escapes a dispatcher callback. An uninitialized slot
returns address 0, and whenever any step of the callback pipeline fails
(unknown builtin id, unknown builtin name, argument decoding, the builtin
function itself, or result encoding) the adapter returns address 0; when
every step succeeds it returns the encoded result address. -/
theorem dispatcher_errors_return_zero :
    (∀ (T : Tables) (id ctx a : Int), Builtins.builtin1 T none id ctx a = 0)
    ∧ (∀ (T : Tables) (id ctx a b : Int), Builtins.builtin2 T none id ctx a b = 0)
    ∧ (∀ (T : Tables) (inner : Inner) (id ctx a : Int) (e : Error),
      Inner.builtin1Except T inner id a = .error e →
      Builtins.builtin1 T (some inner) id ctx a = 0)
    ∧ (∀ (T : Tables) (inner : Inner) (id ctx a : Int) (addr : Int),
      Inner.builtin1Except T inner id a = .ok addr →
      Builtins.builtin1 T (some inner) id ctx a = addr)
    ∧ (∀ (T : Tables) (inner : Inner) (id ctx a b : Int) (e : Error),
      Inner.builtin2Except T inner id a b = .error e →
      Builtins.builtin2 T (some inner) id ctx a b = 0)
    ∧ (∀ (T : Tables) (inner : Inner) (id ctx a b : Int) (addr : Int),
      Inner.builtin2Except T inner id a b = .ok addr →
      Builtins.builtin2 T (some inner) id ctx a b = addr) := by
  refine ⟨fun T id ctx a => rfl, fun T id ctx a b => rfl, ?_, ?_, ?_, ?_⟩
  · intro T inner id ctx a e h
    show Inner.builtin1 T inner id ctx a = 0
    rw [Inner.builtin1_eq T inner id ctx a, h]
  · intro T inner id ctx a addr h
    show Inner.builtin1 T inner id ctx a = addr
    rw [Inner.builtin1_eq T inner id ctx a, h]
  · intro T inner id ctx a b e h
    show Inner.builtin2 T inner id ctx a b = 0
    rw [Inner.builtin2_eq T inner id ctx a b, h]
  · intro T inner id ctx a b addr h
    show Inner.builtin2 T inner id ctx a b = addr
    rw [Inner.builtin2_eq T inner id ctx a b, h]

/-- Tables and an `Inner` for the C5 witness: an empty id lookup map with
a trivially failing codec. -/
def emptyTables : Tables :=
  ⟨fun _ => none, fun _ => none, fun _ => none, fun _ => none, fun _ => none⟩

def emptyInner : Inner :=
  ⟨[], fun _ => .error .initialization, fun _ => .error .initialization⟩

/-- C5 witness: an unknown builtin id makes the arity-1 adapter return 0. -/
theorem dispatcher_errors_return_zero_witness :
    Builtins.builtin1 emptyTables (some emptyInner) 7 0 0 = 0 :=
  dispatcher_errors_return_zero.2.2.1 emptyTables emptyInner 7 0 0
    (.unknownBuiltinId 7) rfl

end DispatcherClaims

/-! ## Regex (`builtins/regex.rs`)

`re_match` formats the pattern as `^pattern$`, compiles it with the
external `regex` crate, and runs `is_match`. The crate is not part of this
repository; compilation and matching are modelled here by a derivative
based engine over the fragment the claims exercise: literal characters,
character classes with ranges, and postfix `*`. A malformed character
class is a compile error, and constructs outside the fragment are
rejected by the model (the real crate accepts more patterns; every
pattern the claims mention is inside the fragment). `^` and `$` are
recognized at the two ends of the pattern, which is where `re_match`
places them. -/

inductive RE where
  | empty
  | eps
  | cls (ranges : List (Char × Char))
  | star (r : RE)
  | cat (r1 r2 : RE)
  | alt (r1 r2 : RE)
  deriving DecidableEq, Repr

namespace RE

def nullable : RE → Bool
  | empty => false
  | eps => true
  | cls _ => false
  | star _ => true
  | cat r1 r2 => nullable r1 && nullable r2
  | alt r1 r2 => nullable r1 || nullable r2

def inRanges (ranges : List (Char × Char)) (c : Char) : Bool :=
  ranges.any (fun p => p.1 ≤ c ∧ c ≤ p.2)

/-- Brzozowski derivative. -/
def deriv : RE → Char → RE
  | empty, _ => empty
  | eps, _ => empty
  | cls ranges, c => if inRanges ranges c then eps else empty
  | star r, c => cat (deriv r c) (star r)
  | cat r1 r2, c =>
      if nullable r1 then alt (cat (deriv r1 c) r2) (deriv r2 c)
      else cat (deriv r1 c) r2
  | alt r1 r2, c => alt (deriv r1 c) (deriv r2 c)

/-- Whether the regex matches the whole character list. -/
def matchesFull (r : RE) (cs : List Char) : Bool :=
  nullable (cs.foldl deriv r)

/-- Whether the regex matches some prefix of the character list. -/
def matchesPrefix (r : RE) : List Char → Bool
  | [] => nullable r
  | c :: rest => nullable r || matchesPrefix (deriv r c) rest

/-- Whether the regex matches some suffix of the character list. -/
def matchesSuffix (r : RE) : List Char → Bool
  | [] => nullable r
  | c :: rest => matchesFull r (c :: rest) || matchesSuffix r rest

/-- Whether the regex matches anywhere inside the character list. -/
def matchesSub (r : RE) : List Char → Bool
  | [] => nullable r
  | c :: rest => matchesPrefix r (c :: rest) || matchesSub r rest

end RE

/-- Parse a character class body up to the closing bracket. A terminating
`-]` keeps the dash literal; an inverted range and a missing `]` are
compile errors, as in the external crate. -/
def parseClass : List Char → Except String (List (Char × Char) × List Char)
  | [] => .error "unclosed character class"
  | ']' :: rest => .ok ([], rest)
  | a :: '-' :: b :: rest =>
      if b = ']' then .ok ([(a, a), ('-', '-')], rest)
      else if b < a then .error "invalid character class range"
      else do
        let (ranges, rest2) ← parseClass rest
        .ok ((a, b) :: ranges, rest2)
  | a :: rest => do
      let (ranges, rest2) ← parseClass rest
      .ok ((a, a) :: ranges, rest2)

/-- Characters that the model does not support as plain literals. -/
def regexMeta : List Char :=
  ['\\', '.', '+', '?', '(', ')', '|', '{', '}', '[', ']', '^', '$']

/-- Fuel-indexed body parser: a sequence of atoms (literal or class),
each optionally starred. The fuel is an upper bound on the input length,
so it never runs out when called through `Regex.new`. -/
def parseSeq : Nat → List Char → Except String RE
  | 0, _ => .error "out of fuel"
  | _ + 1, [] => .ok .eps
  | fuel + 1, '[' :: rest => do
      let (ranges, rest2) ← parseClass rest
      match rest2 with
      | '*' :: rest3 => do
          let r ← parseSeq fuel rest3
          .ok (.cat (.star (.cls ranges)) r)
      | _ => do
          let r ← parseSeq fuel rest2
          .ok (.cat (.cls ranges) r)
  | _ + 1, '*' :: _ => .error "repetition operator missing an argument"
  | fuel + 1, c :: rest =>
      if c ∈ regexMeta then .error "unsupported construct in the regex model"
      else
        match rest with
        | '*' :: rest2 => do
            let r ← parseSeq fuel rest2
            .ok (.cat (.star (.cls [(c, c)])) r)
        | _ => do
            let r ← parseSeq fuel rest
            .ok (.cat (.cls [(c, c)]) r)

structure Regex where
  anchorStart : Bool
  anchorEnd : Bool
  re : RE
  deriving DecidableEq, Repr

/-- `Regex::new`: strip a leading `^` and a trailing `$`, then parse the
body. -/
def Regex.new (s : String) : Except String Regex :=
  let cs := s.toList
  let p1 := match cs with
    | '^' :: rest => (true, rest)
    | _ => (false, cs)
  let p2 := match p1.2.getLast? with
    | some '$' => (true, p1.2.dropLast)
    | _ => (false, p1.2)
  match parseSeq (p2.2.length + 1) p2.2 with
  | .error e => .error e
  | .ok re => .ok ⟨p1.1, p2.1, re⟩

/-- `Regex::is_match`: anchored ends constrain the match to the start
and/or the end of the subject. -/
def Regex.isMatch (r : Regex) (s : String) : Bool :=
  match r.anchorStart, r.anchorEnd with
  | true, true => RE.matchesFull r.re s.toList
  | true, false => RE.matchesPrefix r.re s.toList
  | false, true => RE.matchesSuffix r.re s.toList
  | false, false => RE.matchesSub r.re s.toList

namespace builtins

/-- `re_match` from `builtins/regex.rs`: anchor the pattern as
`^pattern$`, compile (a compile failure becomes `InvalidRegex`), and test
the value. -/
def re_match (pattern value : Value) : Except Error Value := do
  let p ← pattern.try_into_string
  let regex ← match Regex.new ("^" ++ p ++ "$") with
    | .ok r => Except.ok r
    | .error e => Except.error (Error.invalidRegex e)
  let v ← value.try_into_string
  Except.ok (.bool (regex.isMatch v))

end builtins

section RegexClaims

/-- C8: `re_match` anchors the pattern as `^pattern$`, so whenever the
anchored pattern compiles the result is the full-string match of the
body against the value; concretely `re_match("[a-z]*", "hello")` is true,
`re_match("[a-z]*", "Hello")` is false, and a pattern that fails to
compile surfaces as `InvalidRegex`. -/
theorem re_match_anchored :
    (∀ (p v : String) (r : Regex),
      Regex.new ("^" ++ p ++ "$") = .ok r →
      r.anchorStart = true ∧ r.anchorEnd = true ∧
        builtins.re_match (.string p) (.string v)
          = .ok (.bool (RE.matchesFull r.re v.toList)))
    ∧ builtins.re_match (.string "[a-z]*") (.string "hello") = .ok (.bool true)
    ∧ builtins.re_match (.string "[a-z]*") (.string "Hello") = .ok (.bool false)
    ∧ builtins.re_match (.string "[") (.string "x")
        = .error (.invalidRegex "unclosed character class") := by
  refine ⟨?_, by decide, by decide, by decide⟩
  intro p v r hr
  have hlist : ("^" ++ p ++ "$").toList = '^' :: (p.toList ++ ['$']) := by
    simp [String.toList, String.data_append]
  have hanchor : ∀ re, r = ⟨true, true, re⟩ →
      r.anchorStart = true ∧ r.anchorEnd = true := by
    intro re h; subst h; exact ⟨rfl, rfl⟩
  unfold Regex.new at hr
  rw [hlist] at hr
  simp only [List.getLast?_concat, List.dropLast_concat] at hr
  cases hparse : parseSeq (p.toList.length + 1) p.toList with
  | error e => rw [hparse] at hr; cases hr
  | ok re =>
      rw [hparse] at hr
      cases hr
      refine ⟨rfl, rfl, ?_⟩
      unfold builtins.re_match
      simp only [Value.try_into_string, bind, Except.bind]
      unfold Regex.new
      rw [hlist]
      simp only [List.getLast?_concat, List.dropLast_concat, hparse]
      rfl

/-- C8 witness: the general anchoring conjunct applied to the concrete
pattern `[a-z]*` and subject `hello`. -/
theorem re_match_anchored_witness :
    builtins.re_match (.string "[a-z]*") (.string "hello")
      = .ok (.bool (RE.matchesFull (RE.cat (.star (.cls [('a', 'z')])) .eps)
          "hello".toList)) :=
  (re_match_anchored.1 "[a-z]*" "hello"
    ⟨true, true, RE.cat (.star (.cls [('a', 'z')])) .eps⟩ (by decide)).2.2

end RegexClaims

/-! ## The heap codec (`opa_serde/mod.rs`, `ser.rs`, `de.rs`)

Heap nodes are the `#[repr(C)]` structs of `opa_serde/mod.rs`; the guest
bump allocator (`opa_malloc`) hands out consecutive addresses, so the
heap is modelled as a bump pointer plus a partial map from base address
to the node written there. Raw UTF-8 string payloads are carried as one
cell holding the string, with the byte length kept in the referencing
node exactly as `opa_string_t` keeps it. `memory().set` of a node is a
cell write; `memory().get::<T>` is a cell read that fails when the cell
does not hold a `T`, which on the well-typed heaps the codec produces is
the same as the byte reinterpretation the Rust code performs. -/

inductive Node where
  | nullN
  | boolN (b : Bool)
  | numInt (i : Int)
  | numFloat (f : F64)
  | numRef (ptr : Nat) (len : Nat)
  | strN (len : Nat) (ptr : Nat)
  | arrN (elems : Nat) (len : Nat)
  | arrElem (iptr : Nat) (vptr : Nat)
  | objN (head : Nat)
  | objElem (k : Nat) (v : Nat) (next : Nat)
  | setN (head : Nat)
  | setElem (v : Nat) (next : Nat)
  | raw (s : String)
  deriving DecidableEq, Repr

namespace Node

/-- `mem::size_of` for each `#[repr(C)]` node struct (wasm32 layout). -/
def size : Node → Nat
  | nullN => 1
  | boolN _ => 8
  | numInt _ => 16
  | numFloat _ => 16
  | numRef _ _ => 16
  | strN _ _ => 12
  | arrN _ _ => 16
  | arrElem _ _ => 8
  | objN _ => 8
  | objElem _ _ _ => 12
  | setN _ => 8
  | setElem _ _ => 8
  | raw s => s.utf8ByteSize

/-- The type tag byte at offset 0 (`OPA_NULL` .. `OPA_SET`); the element
and raw-data cells have no tag, reading one as a value is meaningless and
gets tag 0. -/
def tag : Node → Nat
  | nullN => 1
  | boolN _ => 2
  | numInt _ => 3
  | numFloat _ => 3
  | numRef _ _ => 3
  | strN _ _ => 4
  | arrN _ _ => 5
  | objN _ => 6
  | setN _ => 7
  | _ => 0

end Node

structure Heap where
  next : Nat
  store : Nat → Option Node

namespace Heap

def write (h : Heap) (a : Nat) (n : Node) : Heap :=
  ⟨h.next, fun x => if x = a then some n else h.store x⟩

/-- `opa_malloc`: bump-allocate, returning the base address. -/
def alloc (h : Heap) (size : Nat) : Nat × Heap :=
  (h.next, ⟨h.next + size, h.store⟩)

/-- `Serializer::store`: allocate room for the node and write it. -/
def storeNode (h : Heap) (n : Node) : Nat × Heap :=
  let p := h.alloc n.size
  (p.1, p.2.write p.1 n)

end Heap

/-! The serde data model of the host values the round-trip claim ranges
over, as an inductive: every constructor is one of the `serialize_*`
entry points of `ser.rs` (bytes and unknown-length sequences, which the
claim excludes, are omitted; `vseq` covers sequences, tuples and tuple
structs, which all take the `serialize_seq` path). -/

inductive HVal where
  | vbool (b : Bool)
  | vint (i : Int)
  | vfloat (f : F64)
  | vstr (s : String)
  | vchar (c : Char)
  | vunit
  | vnone
  | vsome (v : HVal)
  | vnewtype (v : HVal)
  | vunitVariant (name : String)
  | vnewtypeVariant (name : String) (v : HVal)
  | vtupleVariant (name : String) (vs : List HVal)
  | vstructVariant (name : String) (fields : List (String × HVal))
  | vseq (vs : List HVal)
  | vmap (entries : List (HVal × HVal))
  | vstruct (fields : List (String × HVal))
  | vset (elems : List HVal)

/-- Values whose encoding is the null node: unit, `None`, and transparent
wrappers (`Some`, newtype structs) around such a value. -/
def encodesNull : HVal → Bool
  | .vunit => true
  | .vnone => true
  | .vsome v => encodesNull v
  | .vnewtype v => encodesNull v
  | _ => false

/-- `serialize_str`: store the raw UTF-8 data, then the string node. -/
def encodeStr (s : String) (h : Heap) : Nat × Heap :=
  let pd := h.alloc s.utf8ByteSize
  let pd2 := pd.2.write pd.1 (.raw s)
  pd2.storeNode (.strN s.utf8ByteSize pd.1)

mutual

/-- `to_instance`: the encoder of `ser.rs`. For the host values `HVal`
describes, no error path of the serializer is reachable (every sequence
has a known length that always matches), so encoding is total. -/
def encode : HVal → Heap → Nat × Heap
  | .vbool b, h => h.storeNode (.boolN b)
  | .vint i, h => h.storeNode (.numInt i)
  | .vfloat f, h => h.storeNode (.numFloat f)
  | .vstr s, h => encodeStr s h
  | .vchar c, h => encodeStr (String.singleton c) h
  | .vunit, h => h.storeNode .nullN
  | .vnone, h => h.storeNode .nullN
  | .vsome v, h => encode v h
  | .vnewtype v, h => encode v h
  | .vunitVariant name, h => encodeStr name h
  | .vnewtypeVariant name v, h =>
      -- serialize_map(Some(1)) with the single (variant, value) entry:
      -- object header first, then key, value, element, head patch
      let p0 := h.storeNode (.objN 0)
      let p1 := encodeStr name p0.2
      let p2 := encode v p1.2
      let p3 := p2.2.storeNode (.objElem p1.1 p2.1 0)
      (p0.1, p3.2.write p0.1 (.objN p3.1))
  | .vtupleVariant name vs, h =>
      -- variant string, dangling element, object header, then the array
      let p0 := encodeStr name h
      let p1 := p0.2.storeNode (.objElem p0.1 0 0)
      let p2 := p1.2.storeNode (.objN p1.1)
      let p3 := encodeArray vs p2.2
      (p2.1, p3.2.write p1.1 (.objElem p0.1 p3.1 0))
  | .vstructVariant name fs, h =>
      let p0 := encodeStr name h
      let p1 := p0.2.storeNode (.objElem p0.1 0 0)
      let p2 := p1.2.storeNode (.objN p1.1)
      let p3 := encodeFieldsObj fs p2.2
      (p2.1, p3.2.write p1.1 (.objElem p0.1 p3.1 0))
  | .vseq vs, h => encodeArray vs h
  | .vmap entries, h =>
      let p0 := h.storeNode (.objN 0)
      (p0.1, encodeObjElems p0.1 none entries p0.2)
  | .vstruct fs, h =>
      let p := encodeFieldsObj fs h
      (p.1, p.2)
  | .vset vs, h =>
      let p0 := h.storeNode (.setN 0)
      (p0.1, encodeSetElems p0.1 none vs p0.2)
termination_by v h => (sizeOf v, 0)

/-- `ArraySerializer`: element table, array header, then per element the
encoded index, the encoded value and the table slot. -/
def encodeArray (vs : List HVal) (h : Heap) : Nat × Heap :=
  let pt := h.alloc (vs.length * 8)
  let ph := pt.2.storeNode (.arrN pt.1 vs.length)
  (ph.1, encodeArrayElems pt.1 0 vs ph.2)
termination_by (sizeOf vs, 1)

def encodeArrayElems (table count : Nat) : List HVal → Heap → Heap
  | [], h => h
  | v :: rest, h =>
      -- the index is a usize serialized through serialize_u64
      let pi := h.storeNode (.numInt (wrap64 count))
      let pv := encode v pi.2
      let h2 := pv.2.write (table + count * 8) (.arrElem pi.1 pv.1)
      encodeArrayElems table (count + 1) rest h2
termination_by vs _ => (sizeOf vs, 0)

/-- `ObjectSerializer` elements for a map: key, value, element cell, and
the patch of the object head (first element) or of the previous element
(whose key and value pointers the serializer still holds). -/
def encodeObjElems (objAddr : Nat) (prev : Option (Nat × Nat × Nat)) :
    List (HVal × HVal) → Heap → Heap
  | [], h => h
  | (k, v) :: rest, h =>
      let pk := encode k h
      let pv := encode v pk.2
      let pe := pv.2.storeNode (.objElem pk.1 pv.1 0)
      let h2 := match prev with
        | none => pe.2.write objAddr (.objN pe.1)
        | some (pAddr, pK, pV) => pe.2.write pAddr (.objElem pK pV pe.1)
      encodeObjElems objAddr (some (pe.1, pk.1, pv.1)) rest h2
termination_by l _ => (sizeOf l, 0)

/-- `SerializeStruct` for a plain struct: the same object layout with the
field names encoded as strings. -/
def encodeFieldsObj (fs : List (String × HVal)) (h : Heap) : Nat × Heap :=
  let p0 := h.storeNode (.objN 0)
  (p0.1, encodeFieldElems p0.1 none fs p0.2)
termination_by (sizeOf fs, 1)

def encodeFieldElems (objAddr : Nat) (prev : Option (Nat × Nat × Nat)) :
    List (String × HVal) → Heap → Heap
  | [], h => h
  | (k, v) :: rest, h =>
      let pk := encodeStr k h
      let pv := encode v pk.2
      let pe := pv.2.storeNode (.objElem pk.1 pv.1 0)
      let h2 := match prev with
        | none => pe.2.write objAddr (.objN pe.1)
        | some (pAddr, pK, pV) => pe.2.write pAddr (.objElem pK pV pe.1)
      encodeFieldElems objAddr (some (pe.1, pk.1, pv.1)) rest h2
termination_by l _ => (sizeOf l, 0)

/-- `SetSerializer` (reached through the set marker struct): per element
the value, a chain cell, and the patch of the set head or of the previous
chain cell. -/
def encodeSetElems (setAddr : Nat) (prev : Option (Nat × Nat)) :
    List HVal → Heap → Heap
  | [], h => h
  | v :: rest, h =>
      let pv := encode v h
      let pe := pv.2.storeNode (.setElem pv.1 0)
      let h2 := match prev with
        | none => pe.2.write setAddr (.setN pe.1)
        | some (pAddr, pV) => pe.2.write pAddr (.setElem pV pe.1)
      encodeSetElems setAddr (some (pe.1, pv.1)) rest h2
termination_by l _ => (sizeOf l, 0)

end


/-- The error enum of `opa_serde/error.rs` (variants whose payloads are
foreign error objects carry their message text). -/
inductive SerdeError where
  | message (s : String)
  | expectedSeqLen
  | nullPtr
  | invalidSeqLen (expected got : Nat)
  | unknownType (t : Nat)
  | expectedBoolean (t : Nat)
  | expectedNumber (t : Nat)
  | expectedInteger (t : Nat)
  | expectedFloat (t : Nat)
  | expectedNumberRef (t : Nat)
  | invalidNumberRepr (t : Nat)
  | integerConversion
  | expectedString (t : Nat)
  | invalidUtf8
  | invalidChar
  | expectedNull (t : Nat)
  | expectedArray (t : Nat)
  | expectedObject (t : Nat)
  | expectedEnum (t : Nat)
  | expectedNextAddr
  | notEnoughData (expected got : Nat)
  deriving DecidableEq, Repr

/-- `memory().get::<T>`: read the cell at an address. -/
def getCell (h : Heap) (a : Nat) : Except SerdeError Node :=
  match h.store a with
  | some n => .ok n
  | none => .error (.notEnoughData 1 0)

/-- `memory().get_bytes(ptr, len)` followed by `String::from_utf8`:
reading zero bytes gives the empty string without touching memory;
otherwise the raw cell written by the encoder is returned whole, and its
byte length must agree. -/
def getBytes (h : Heap) (ptr len : Nat) : Except SerdeError String :=
  if len = 0 then .ok ""
  else
    match h.store ptr with
    | some (.raw s) =>
        if s.utf8ByteSize = len then .ok s
        else .error (.notEnoughData len s.utf8ByteSize)
    | _ => .error (.notEnoughData len 0)

/-- `Deserializer::parse_string`. -/
def parseString (h : Heap) (a : Nat) : Except SerdeError String := do
  match ← getCell h a with
  | .strN len ptr => getBytes h ptr len
  | n => .error (.expectedString n.tag)

/-- `SetAccess`: follow the chain of `opa_set_elem_t` cells collecting the
value pointers. The fuel bounds the walk; a heap built by the encoder has
chains shorter than its bump pointer. -/
def chainSet (h : Heap) : Nat → Nat → Except SerdeError (List Nat)
  | 0, _ => .error (.message "set chain does not terminate")
  | fuel + 1, addr => do
      match ← getCell h addr with
      | .setElem v next =>
          if next = 0 then .ok [v]
          else do
            let rest ← chainSet h fuel next
            .ok (v :: rest)
      | n => .error (.expectedArray n.tag)

/-- `ObjectAccess`: follow the chain of `opa_object_elem_t` cells
collecting key and value pointers. -/
def chainObj (h : Heap) : Nat → Nat → Except SerdeError (List (Nat × Nat))
  | 0, _ => .error (.message "object chain does not terminate")
  | fuel + 1, addr => do
      match ← getCell h addr with
      | .objElem k v next =>
          if next = 0 then .ok [(k, v)]
          else do
            let rest ← chainObj h fuel next
            .ok ((k, v) :: rest)
      | n => .error (.expectedObject n.tag)

/-- `ArrayAccess`: the element table read by index `i`, `remaining` slots
left to visit. -/
def arrayElemPtrsGo (h : Heap) (elems : Nat) : Nat → Nat → Except SerdeError (List Nat)
  | 0, _ => .ok []
  | remaining + 1, i => do
      match ← getCell h (elems + i * 8) with
      | .arrElem _ v => do
          let rest ← arrayElemPtrsGo h elems remaining (i + 1)
          .ok (v :: rest)
      | n => .error (.expectedArray n.tag)

/-- `ArrayAccess`: the element table read by index. -/
def arrayElemPtrs (h : Heap) (elems len : Nat) : Except SerdeError (List Nat) :=
  arrayElemPtrsGo h elems len 0

/-- `deserialize_seq`: the value pointers of an array node (table walk)
or of a set node (chain walk). -/
def seqPtrs (h : Heap) (a : Nat) : Except SerdeError (List Nat) := do
  match ← getCell h a with
  | .arrN elems len => arrayElemPtrs h elems len
  | .setN head => if head = 0 then .ok [] else chainSet h h.next head
  | n => .error (.expectedArray n.tag)

/-- `deserialize_map`: the key and value pointers of an object node. -/
def objKvs (h : Heap) (a : Nat) : Except SerdeError (List (Nat × Nat)) := do
  match ← getCell h a with
  | .objN head => if head = 0 then .ok [] else chainObj h h.next head
  | n => .error (.expectedObject n.tag)

mutual

/-- The part of the serde data model a `Deserialize` impl asks for: the
type skeleton that drives `de.rs`. Enum variants carry their payload
shapes. -/
inductive HTy where
  | tbool
  | tint
  | tfloat
  | tstr
  | tchar
  | tunit
  | topt (t : HTy)
  | tnewtype (t : HTy)
  | tseq (t : HTy)
  | ttuple (ts : List HTy)
  | tmap (k v : HTy)
  | tstruct (fields : List (String × HTy))
  | tenum (variants : List (String × VariantTy))
  | tset (t : HTy)

inductive VariantTy where
  | unitV
  | newtypeV (t : HTy)
  | tupleV (ts : List HTy)
  | structV (fields : List (String × HTy))

end

/-- Every type skeleton has positive size (used for termination). -/
theorem HTy.one_le_sizeOf : ∀ t : HTy, 1 ≤ sizeOf t := by
  intro t; cases t <;> simp_arith

/-- Variant lookup by name in a declared enum (Rust variant names are
distinct, and serde matches by name). -/
def findVariant (vars : List (String × VariantTy)) (name : String) :
    Option VariantTy :=
  (vars.find? (fun p => p.1 = name)).map (fun p => p.2)

/-- The string path of `deserialize_enum`: the derived visitor accepts the
name only as a unit variant. -/
def decodeUnitVariant (vars : List (String × VariantTy)) (s : String) :
    Except SerdeError HVal :=
  match findVariant vars s with
  | some .unitV => .ok (.vunitVariant s)
  | some _ => .error (.message "invalid type: unit variant")
  | none => .error (.message "unknown variant")

mutual

/-- `from_instance`: the decoder of `de.rs` driven by the requested type
skeleton. The visitors that the derived `Deserialize` impls supply are
external to the repository and are modelled from the specification decode
contract (struct fields are consumed in declared order, which is the
order the encoder of this crate emits). -/
def decode (h : Heap) : HTy → Nat → Except SerdeError HVal
  | .tbool, a => do
      match ← getCell h a with
      | .boolN b => .ok (.vbool b)
      | n => .error (.expectedBoolean n.tag)
  | .tint, a => do
      match ← getCell h a with
      | .numInt i => .ok (.vint i)
      | .numFloat _ => .error (.expectedInteger 2)
      | .numRef _ _ => .error (.expectedInteger 3)
      | n => .error (.expectedNumber n.tag)
  | .tfloat, a => do
      match ← getCell h a with
      | .numFloat f => .ok (.vfloat f)
      | .numInt _ => .error (.expectedFloat 1)
      | .numRef _ _ => .error (.expectedFloat 3)
      | n => .error (.expectedNumber n.tag)
  | .tstr, a => do
      let s ← parseString h a
      .ok (.vstr s)
  | .tchar, a => do
      let s ← parseString h a
      match s.toList with
      | c :: _ => .ok (.vchar c)
      | [] => .error .invalidChar
  | .tunit, a => do
      match ← getCell h a with
      | .nullN => .ok .vunit
      | n => .error (.expectedNull n.tag)
  | .topt t, a => do
      match ← getCell h a with
      | .nullN => .ok .vnone
      | _ => do
          let v ← decode h t a
          .ok (.vsome v)
  | .tnewtype t, a => do
      let v ← decode h t a
      .ok (.vnewtype v)
  | .tseq t, a => do
      let ptrs ← seqPtrs h a
      let vs ← decodeList h t ptrs
      .ok (.vseq vs)
  | .ttuple ts, a => do
      let ptrs ← seqPtrs h a
      let vs ← decodeTuple h ts ptrs
      .ok (.vseq vs)
  | .tmap tk tv, a => do
      let kvs ← objKvs h a
      let entries ← decodeEntries h tk tv kvs
      .ok (.vmap entries)
  | .tstruct fts, a => do
      let kvs ← objKvs h a
      let fs ← decodeFields h fts kvs
      .ok (.vstruct fs)
  | .tenum vars, a => do
      match ← getCell h a with
      | .strN len ptr => do
          let s ← getBytes h ptr len
          decodeUnitVariant vars s
      | .objN head => do
          match ← getCell h head with
          | .objElem kPtr vPtr _ => do
              let name ← parseString h kPtr
              decodeVariantPayload h vars name vPtr
          | n => .error (.expectedObject n.tag)
      | n => .error (.expectedEnum n.tag)
  | .tset t, a => do
      match ← getCell h a with
      | .setN head => do
          let ptrs ← if head = 0 then Except.ok [] else chainSet h h.next head
          let vs ← decodeList h t ptrs
          .ok (.vset vs)
      | n => .error (.message "expected a set node")
termination_by t _ => (sizeOf t, 0)

/-- The object path of `deserialize_enum`: locate the variant by name and
decode the payload by its shape. -/
def decodeVariantPayload (h : Heap) :
    List (String × VariantTy) → String → Nat → Except SerdeError HVal
  | [], _, _ => .error (.message "unknown variant")
  | (n, vt) :: rest, name, vPtr =>
      if n = name then
        match vt with
        | .unitV => .error (.expectedString 0)
        | .newtypeV t => do
            let v ← decode h t vPtr
            .ok (.vnewtypeVariant name v)
        | .tupleV ts => do
            let ptrs ← seqPtrs h vPtr
            let vs ← decodeTuple h ts ptrs
            .ok (.vtupleVariant name vs)
        | .structV fts => do
            let kvs ← objKvs h vPtr
            let fs ← decodeFields h fts kvs
            .ok (.vstructVariant name fs)
      else decodeVariantPayload h rest name vPtr
termination_by vars _ _ => (sizeOf vars, 0)

/-- A homogeneous run of elements (`Vec<T>`). -/
def decodeList (h : Heap) (t : HTy) : List Nat → Except SerdeError (List HVal)
  | [] => .ok []
  | a :: rest => do
      let v ← decode h t a
      let vs ← decodeList h t rest
      .ok (v :: vs)
termination_by l => (sizeOf t, l.length + 1)

/-- A tuple: component types consumed pointwise, lengths must agree. -/
def decodeTuple (h : Heap) : List HTy → List Nat → Except SerdeError (List HVal)
  | [], [] => .ok []
  | t :: ts, a :: rest => do
      let v ← decode h t a
      let vs ← decodeTuple h ts rest
      .ok (v :: vs)
  | _, _ => .error (.message "invalid tuple length")
termination_by ts _ => (sizeOf ts, 0)

/-- Map entries: keys and values decoded at the two entry types. -/
def decodeEntries (h : Heap) (tk tv : HTy) :
    List (Nat × Nat) → Except SerdeError (List (HVal × HVal))
  | [] => .ok []
  | (ka, va) :: rest => do
      let k ← decode h tk ka
      let v ← decode h tv va
      let entries ← decodeEntries h tk tv rest
      .ok ((k, v) :: entries)
termination_by l => (sizeOf tk + sizeOf tv, l.length + 1)
decreasing_by
  · exact Prod.Lex.left _ _ (by have := HTy.one_le_sizeOf tv; omega)
  · exact Prod.Lex.left _ _ (by have := HTy.one_le_sizeOf tk; omega)
  · exact Prod.Lex.right _ (by simp [List.length_cons])

/-- Struct fields in declared order: each key must be the declared field
name, each value is decoded at the declared field type. -/
def decodeFields (h : Heap) : List (String × HTy) → List (Nat × Nat) →
    Except SerdeError (List (String × HVal))
  | [], [] => .ok []
  | (name, t) :: fts, (ka, va) :: rest => do
      let k ← parseString h ka
      if k = name then do
        let v ← decode h t va
        let fs ← decodeFields h fts rest
        .ok ((k, v) :: fs)
      else .error (.message "unknown or out-of-order field")
  | _ :: _, [] => .error (.message "missing field")
  | [], _ :: _ => .error (.message "unexpected extra field")
termination_by fts _ => (sizeOf fts, 0)

end

/-- `serialize_u64` forwards to `serialize_i64` through an `as i64`
cast, which wraps. -/
def serialize_u64 (v : Nat) (h : Heap) : Nat × Heap :=
  h.storeNode (.numInt (wrap64 v))

/-- The typing relation between a host value and the type skeleton whose
`Deserialize` impl can receive it. It mirrors what the serde derive
produces: integers are 64-bit (the claim restricts to the `i64` range),
floats are finite (a NaN is never equal to itself on the host, so the
round-trip claim cannot include it), `Some` never wraps a value whose
encoding is the null node, and enum variants must be declared. -/
inductive HasTy : HVal → HTy → Prop where
  | bool (b : Bool) : HasTy (.vbool b) .tbool
  | int (i : Int) : i64Min ≤ i → i ≤ i64Max → HasTy (.vint i) .tint
  | float (f : F64) : f.isFinite = true → HasTy (.vfloat f) .tfloat
  | str (s : String) : HasTy (.vstr s) .tstr
  | char (c : Char) : HasTy (.vchar c) .tchar
  | unit : HasTy .vunit .tunit
  | none (t : HTy) : HasTy .vnone (.topt t)
  | some (v : HVal) (t : HTy) : HasTy v t → encodesNull v = false →
      HasTy (.vsome v) (.topt t)
  | newtype (v : HVal) (t : HTy) : HasTy v t → HasTy (.vnewtype v) (.tnewtype t)
  | unitVariant (name : String) (vars : List (String × VariantTy)) :
      findVariant vars name = some .unitV → HasTy (.vunitVariant name) (.tenum vars)
  | newtypeVariant (name : String) (v : HVal) (t : HTy)
      (vars : List (String × VariantTy)) :
      findVariant vars name = some (.newtypeV t) → HasTy v t →
      HasTy (.vnewtypeVariant name v) (.tenum vars)
  | tupleVariant (name : String) (vs : List HVal) (ts : List HTy)
      (vars : List (String × VariantTy)) :
      findVariant vars name = some (.tupleV ts) → List.Forall₂ HasTy vs ts →
      HasTy (.vtupleVariant name vs) (.tenum vars)
  | structVariant (name : String) (fs : List (String × HVal))
      (fts : List (String × HTy)) (vars : List (String × VariantTy)) :
      findVariant vars name = some (.structV fts) →
      fs.map Prod.fst = fts.map Prod.fst →
      List.Forall₂ HasTy (fs.map Prod.snd) (fts.map Prod.snd) →
      HasTy (.vstructVariant name fs) (.tenum vars)
  | seq (vs : List HVal) (t : HTy) :
      List.Forall₂ HasTy vs (List.replicate vs.length t) →
      HasTy (.vseq vs) (.tseq t)
  | tuple (vs : List HVal) (ts : List HTy) : List.Forall₂ HasTy vs ts →
      HasTy (.vseq vs) (.ttuple ts)
  | map (entries : List (HVal × HVal)) (tk tv : HTy) :
      List.Forall₂ HasTy (entries.map Prod.fst) (List.replicate entries.length tk) →
      List.Forall₂ HasTy (entries.map Prod.snd) (List.replicate entries.length tv) →
      HasTy (.vmap entries) (.tmap tk tv)
  | struct (fs : List (String × HVal)) (fts : List (String × HTy)) :
      fs.map Prod.fst = fts.map Prod.fst →
      List.Forall₂ HasTy (fs.map Prod.snd) (fts.map Prod.snd) →
      HasTy (.vstruct fs) (.tstruct fts)
  | set (vs : List HVal) (t : HTy) :
      List.Forall₂ HasTy vs (List.replicate vs.length t) →
      HasTy (.vset vs) (.tset t)

/-- `h2` holds the same cells as `h` at every address in `[lo, hi)`. -/
def agreesOn (lo hi : Nat) (h h2 : Heap) : Prop :=
  ∀ y, lo ≤ y → y < hi → h2.store y = h.store y

theorem Heap.storeNode_fst (h : Heap) (n : Node) : (h.storeNode n).1 = h.next := rfl

theorem Heap.storeNode_next (h : Heap) (n : Node) :
    (h.storeNode n).2.next = h.next + n.size := rfl

theorem Heap.storeNode_store (h : Heap) (n : Node) (x : Nat) :
    (h.storeNode n).2.store x = if x = h.next then some n else h.store x := rfl

/-- The conclusions the round-trip induction carries for one encode from
one starting heap: the bump pointer advances, the root lands in the fresh
region, writes stay inside it, and on any later heap that still agrees on
that region the typed decode returns the value; the root cell is the null
node exactly for null-encoding values. -/
structure EncStep (v : HVal) (t : HTy) (h : Heap) : Prop where
  next_lt : h.next < (encode v h).2.next
  addr_ge : h.next ≤ (encode v h).1
  addr_lt : (encode v h).1 < (encode v h).2.next
  frame : ∀ x, x < h.next ∨ (encode v h).2.next ≤ x →
    (encode v h).2.store x = h.store x
  dec : ∀ h2 : Heap, agreesOn h.next (encode v h).2.next (encode v h).2 h2 →
    (encode v h).2.next ≤ h2.next → decode h2 t (encode v h).1 = .ok v
  root : ∀ h2 : Heap, agreesOn h.next (encode v h).2.next (encode v h).2 h2 →
    if encodesNull v then h2.store (encode v h).1 = some .nullN
    else ∃ nd, h2.store (encode v h).1 = some nd ∧ nd ≠ .nullN

def EncInv (v : HVal) (t : HTy) : Prop := ∀ h : Heap, EncStep v t h

theorem utf8ByteSize_eq_zero {s : String} (h : s.utf8ByteSize = 0) : s = "" := by
  cases s with
  | mk data =>
    cases data with
    | nil => rfl
    | cons c cs =>
        exfalso
        have hpos := Char.utf8Size_pos c
        have : String.utf8ByteSize ⟨c :: cs⟩ = String.utf8ByteSize.go cs + c.utf8Size := rfl
        omega

theorem agreesOn.mono {lo hi lo2 hi2 : Nat} {h h2 : Heap}
    (hag : agreesOn lo hi h h2) (hlo : lo ≤ lo2) (hhi : hi2 ≤ hi) :
    agreesOn lo2 hi2 h h2 :=
  fun y hy1 hy2 => hag y (le_trans hlo hy1) (lt_of_lt_of_le hy2 hhi)

/-- Everything the induction needs about one `serialize_str` run. -/
theorem encodeStr_spec (s : String) (h : Heap) :
    (encodeStr s h).1 = h.next + s.utf8ByteSize
    ∧ (encodeStr s h).2.next = h.next + s.utf8ByteSize + 12
    ∧ (∀ x, x < h.next ∨ (encodeStr s h).2.next ≤ x →
        (encodeStr s h).2.store x = h.store x)
    ∧ ∀ h2, agreesOn h.next (encodeStr s h).2.next (encodeStr s h).2 h2 →
        parseString h2 (encodeStr s h).1 = .ok s
        ∧ h2.store (encodeStr s h).1 = some (.strN s.utf8ByteSize h.next) := by
  refine ⟨rfl, rfl, ?_, ?_⟩
  · intro x hx
    show (if x = h.next + s.utf8ByteSize then _ else if x = h.next then _ else h.store x) = _
    rw [if_neg (by simp [encodeStr, Heap.alloc, Heap.write, Heap.storeNode, Node.size] at hx ⊢; omega),
      if_neg (by simp [encodeStr, Heap.alloc, Heap.write, Heap.storeNode, Node.size] at hx ⊢; omega)]
  · intro h2 hag
    have hnext : (encodeStr s h).2.next = h.next + s.utf8ByteSize + 12 := rfl
    have haddr : h2.store (h.next + s.utf8ByteSize) = some (.strN s.utf8ByteSize h.next) := by
      rw [hag (h.next + s.utf8ByteSize) (by omega) (by omega)]
      show (if h.next + s.utf8ByteSize = h.next + s.utf8ByteSize then _ else _) = _
      rw [if_pos rfl]
      rfl
    refine ⟨?_, haddr⟩
    show (do
      match ← getCell h2 (encodeStr s h).1 with
      | .strN len ptr => getBytes h2 ptr len
      | n => .error (.expectedString n.tag)) = .ok s
    have harf : (encodeStr s h).1 = h.next + s.utf8ByteSize := rfl
    rw [harf, getCell, haddr]
    show getBytes h2 h.next s.utf8ByteSize = .ok s
    rcases Nat.eq_zero_or_pos s.utf8ByteSize with hz | hp
    · rw [getBytes, if_pos hz, utf8ByteSize_eq_zero hz]
    · have hraw : h2.store h.next = some (.raw s) := by
        rw [hag h.next (le_refl _) (by omega)]
        show (if h.next = h.next + s.utf8ByteSize then _
          else if h.next = h.next then _ else _) = _
        rw [if_neg (by omega), if_pos rfl]
      rw [getBytes, if_neg (by omega), hraw]
      simp

/-- One run of the array element loop: the index nodes, the encoded
values and the table slots land where the decoder will look for them. -/
theorem encodeArrayElems_spec (table N : Nat) :
    ∀ (vs : List HVal) (ts : List HTy) (count : Nat) (h : Heap),
    List.Forall₂ EncInv vs ts →
    N ≤ table →
    table + (count + vs.length) * 8 ≤ h.next →
    N ≤ h.next →
    h.next ≤ (encodeArrayElems table count vs h).next
    ∧ (∀ x, (x < h.next ∨ (encodeArrayElems table count vs h).next ≤ x) →
        ¬ (table + count * 8 ≤ x ∧ x < table + (count + vs.length) * 8) →
        (encodeArrayElems table count vs h).store x = h.store x)
    ∧ (∀ h2, agreesOn N (encodeArrayElems table count vs h).next
          (encodeArrayElems table count vs h) h2 →
        (encodeArrayElems table count vs h).next ≤ h2.next →
        ∃ ptrs, arrayElemPtrsGo h2 table vs.length count = .ok ptrs
          ∧ decodeTuple h2 ts ptrs = .ok vs) := by
  intro vs
  induction vs with
  | nil =>
      intro ts count h hF _ _ _
      cases hF
      have hnil : encodeArrayElems table count [] h = h := by rw [encodeArrayElems]
      refine ⟨by rw [hnil], fun x _ _ => by rw [hnil], fun h2 _ _ => ⟨[], rfl, ?_⟩⟩
      rw [decodeTuple]
  | cons v rest ih =>
      intro ts count h hF htab hroom hN
      obtain ⟨t, ts2, hEI, hrest, rfl⟩ := List.forall₂_cons_left_iff.mp hF
      simp only [List.length_cons] at hroom
      -- name the intermediate heaps
      set hI : Heap := (h.storeNode (.numInt (wrap64 count))).2 with hI_def
      set iAddr : Nat := (h.storeNode (.numInt (wrap64 count))).1 with iAddr_def
      have hInext : hI.next = h.next + 16 := rfl
      have hIaddr : iAddr = h.next := rfl
      have hIstore : ∀ x, x ≠ h.next → hI.store x = h.store x := by
        intro x hx
        show (if x = h.next then _ else h.store x) = h.store x
        rw [if_neg hx]
      have hIcell : hI.store h.next = some (.numInt (wrap64 count)) := by
        show (if h.next = h.next then _ else _) = _
        rw [if_pos rfl]
      obtain ⟨SI⟩ : Nonempty (EncStep v t hI) := ⟨hEI hI⟩
      set va : Nat := (encode v hI).1 with va_def
      set hV : Heap := (encode v hI).2 with hV_def
      set slotAddr : Nat := table + count * 8 with slot_def
      set hS : Heap := hV.write slotAddr (.arrElem iAddr va) with hS_def
      have hSnext : hS.next = hV.next := rfl
      have hSstore : ∀ x, x ≠ slotAddr → hS.store x = hV.store x := by
        intro x hx
        show (if x = slotAddr then _ else _) = _
        rw [if_neg hx]
      have hScell : hS.store slotAddr = some (.arrElem iAddr va) := by
        show (if slotAddr = slotAddr then _ else _) = _
        rw [if_pos rfl]
      have hrun : encodeArrayElems table count (v :: rest) h
          = encodeArrayElems table (count + 1) rest hS := by
        rw [encodeArrayElems]
      have hIV : hI.next < hV.next := SI.next_lt
      have hS_ge : h.next ≤ hS.next := by rw [hSnext]; omega
      have hroom2 : table + (count + 1 + rest.length) * 8 ≤ hS.next := by omega
      have hN2 : N ≤ hS.next := by omega
      obtain ⟨ihNext, ihFrame, ihDec⟩ :=
        ih ts2 (count + 1) hS hrest htab hroom2 hN2
      rw [hrun]
      have hnext_chain : h.next ≤ (encodeArrayElems table (count + 1) rest hS).next := by
        omega
      refine ⟨hnext_chain, ?_, ?_⟩
      · -- frame
        intro x hx hslot
        simp only [List.length_cons] at hslot
        have hxS : ¬ (table + (count + 1) * 8 ≤ x ∧ x < table + (count + 1 + rest.length) * 8) := by
          omega
        have hx2 : x < hS.next ∨ (encodeArrayElems table (count + 1) rest hS).next ≤ x := by
          rcases hx with hx | hx
          · left; omega
          · right; exact hx
        rw [ihFrame x hx2 hxS]
        rcases hx with hx | hx
        · rw [hSstore x (by omega), SI.frame x (by left; omega), hIstore x (by omega)]
        · have hxbig : hV.next ≤ x := by
            have := ihNext
            rw [hSnext] at this
            omega
          rw [hSstore x (by omega), SI.frame x (by right; exact hxbig),
            hIstore x (by omega)]
      · -- decode
        intro h2 hag hfuel
        set hFin : Heap := encodeArrayElems table (count + 1) rest hS with hFin_def
        have hVle : hV.next ≤ hFin.next := by rw [← hSnext]; exact ihNext
        -- the slot cell survives the recursion and reaches h2
        have hslot_lt : slotAddr < h.next := by omega
        have hslotFin : hFin.store slotAddr = some (.arrElem iAddr va) := by
          rw [ihFrame slotAddr (by left; rw [hSnext]; omega) (by omega)]
          exact hScell
        have hslot2 : h2.store slotAddr = some (.arrElem iAddr va) := by
          rw [hag slotAddr (by omega) (by omega)]
          exact hslotFin
        -- v decodes in h2
        have hagV : agreesOn hI.next hV.next hV h2 := by
          intro y hy1 hy2
          have hyFin : hFin.store y = hV.store y := by
            rw [ihFrame y (by left; rw [hSnext]; omega) (by omega),
              hSstore y (by omega)]
          rw [hag y (by omega) (by omega), hyFin]
        have hdecv : decode h2 t va = .ok v :=
          SI.dec h2 hagV (le_trans hVle hfuel)
        obtain ⟨ptrs, hptrs, hdecs⟩ := ihDec h2 hag hfuel
        refine ⟨va :: ptrs, ?_, ?_⟩
        · show (do
            match ← getCell h2 (table + count * 8) with
            | .arrElem _ v => do
                let rest2 ← arrayElemPtrsGo h2 table rest.length (count + 1)
                Except.ok (v :: rest2)
            | n => Except.error (.expectedArray n.tag)) = .ok (va :: ptrs)
          rw [getCell, ← slot_def, hslot2]
          show (do
            let rest2 ← arrayElemPtrsGo h2 table rest.length (count + 1)
            Except.ok (va :: rest2)) = .ok (va :: ptrs)
          rw [hptrs]
          rfl
        · simp [decodeTuple, hdecv, hdecs, bind, Except.bind]

/-- The patch target of a chain step: the container header for the first
element, the previous chain cell afterwards. -/
def setPatchTarget (setAddr : Nat) : Option (Nat × Nat) → Nat
  | none => setAddr
  | some (pa, _) => pa

/-- The node written at the patch target when the next cell sits at `ea`. -/
def setPatchNode (ea : Nat) : Option (Nat × Nat) → Node
  | none => .setN ea
  | some (_, pv) => .setElem pv ea

/-- One run of the set element loop. -/
theorem encodeSetElems_spec (t : HTy) (setAddr N : Nat) :
    ∀ (vs : List HVal) (prev : Option (Nat × Nat)) (h : Heap),
    (∀ v ∈ vs, EncInv v t) →
    N ≤ h.next →
    N ≤ setPatchTarget setAddr prev →
    setPatchTarget setAddr prev < h.next →
    h.next + vs.length ≤ (encodeSetElems setAddr prev vs h).next
    ∧ (∀ x, (x < h.next ∨ (encodeSetElems setAddr prev vs h).next ≤ x) →
        x ≠ setPatchTarget setAddr prev →
        (encodeSetElems setAddr prev vs h).store x = h.store x)
    ∧ (vs = [] → encodeSetElems setAddr prev vs h = h)
    ∧ (vs ≠ [] → ∃ e1, (encodeSetElems setAddr prev vs h).store (setPatchTarget setAddr prev)
        = some (setPatchNode e1 prev))
    ∧ (∀ h2, agreesOn N (encodeSetElems setAddr prev vs h).next
          (encodeSetElems setAddr prev vs h) h2 →
        (encodeSetElems setAddr prev vs h).next ≤ h2.next →
        vs ≠ [] →
        ∃ e1 ptrs,
          h.next ≤ e1
          ∧ h2.store (setPatchTarget setAddr prev) = some (setPatchNode e1 prev)
          ∧ (∀ fuel, vs.length ≤ fuel → chainSet h2 fuel e1 = .ok ptrs)
          ∧ decodeList h2 t ptrs = .ok vs) := by
  intro vs
  induction vs with
  | nil =>
      intro prev h _ _ _ _
      have hnil : encodeSetElems setAddr prev [] h = h := by rw [encodeSetElems]
      exact ⟨by rw [hnil]; simp, fun x _ _ => by rw [hnil], fun _ => hnil,
        fun hne => absurd rfl hne,
        fun h2 _ _ hne => absurd rfl hne⟩
  | cons v rest ih =>
      intro prev h hinv hN hNt hTlt
      have hEI : EncInv v t := hinv v (by simp)
      obtain ⟨SV⟩ : Nonempty (EncStep v t h) := ⟨hEI h⟩
      set va : Nat := (encode v h).1 with va_def
      set hV : Heap := (encode v h).2 with hV_def
      set ea : Nat := hV.next with ea_def
      set hE : Heap := (hV.storeNode (.setElem va 0)).2 with hE_def
      have hEnext : hE.next = hV.next + 8 := rfl
      have hEstore : ∀ x, x ≠ ea → hE.store x = hV.store x := by
        intro x hx
        show (if x = hV.next then _ else _) = _
        rw [if_neg hx]
        rfl
      have hEcell : hE.store ea = some (.setElem va 0) := by
        show (if hV.next = hV.next then _ else _) = _
        rw [if_pos rfl]
      set target : Nat := setPatchTarget setAddr prev with target_def
      set patched : Node := setPatchNode ea prev with patched_def
      set hP : Heap := hE.write target patched with hP_def
      have hPnext : hP.next = hV.next + 8 := rfl
      have hPstore : ∀ x, x ≠ target → hP.store x = hE.store x := by
        intro x hx
        show (if x = target then _ else _) = _
        rw [if_neg hx]
      have hPcell : hP.store target = some patched := by
        show (if target = target then _ else _) = _
        rw [if_pos rfl]
      have hrun : encodeSetElems setAddr prev (v :: rest) h
          = encodeSetElems setAddr (some (ea, va)) rest hP := by
        rw [encodeSetElems.eq_def]
        cases prev with
        | none => rfl
        | some p => cases p with | mk pa pv => rfl
      have hVlt : h.next < hV.next := SV.next_lt
      have hP_ge : h.next ≤ hP.next := by omega
      have htgt2 : setPatchTarget setAddr (some (ea, va)) = ea := rfl
      obtain ⟨ihNext, ihFrame, ihNil, ihCell, ihDec⟩ :=
        ih (some (ea, va)) hP (fun w hw => hinv w (by simp [hw]))
          (by omega) (by rw [htgt2]; omega) (by rw [htgt2, hPnext]; omega)
      rw [hrun]
      have ihNext2 : hP.next + rest.length ≤ (encodeSetElems setAddr (some (ea, va)) rest hP).next :=
        ihNext
      set hFin : Heap := encodeSetElems setAddr (some (ea, va)) rest hP with hFin_def
      have htFin : hFin.store target = some patched := by
        cases rest with
        | nil => rw [ihNil rfl]; exact hPcell
        | cons r rs =>
            rw [ihFrame target (by left; omega) (by rw [htgt2]; omega)]
            exact hPcell
      refine ⟨by simp only [List.length_cons]; omega, ?_, ?_, ?_, ?_⟩
      · -- frame
        intro x hx hxt
        have hx2 : x < hP.next ∨ hFin.next ≤ x := by
          rcases hx with hx | hx
          · left; omega
          · right; exact hx
        rw [ihFrame x hx2 (by rw [htgt2]; rcases hx with hx | hx <;> omega)]
        rcases hx with hx | hx
        · rw [hPstore x hxt, hEstore x (by omega), SV.frame x (by left; omega)]
        · rw [hPstore x hxt, hEstore x (by omega),
            SV.frame x (by right; show hV.next ≤ x; omega)]
      · -- the nonempty list never equals the empty one
        intro hc
        exact absurd hc (by simp)
      · -- the patched cell in the final heap
        intro _
        exact ⟨ea, by rw [← patched_def]; exact htFin⟩
      · -- decode
        intro h2 hag hfuel _
        have hVle : hV.next ≤ hFin.next := by omega
        have ht2 : h2.store target = some patched := by
          rw [hag target (by omega) (by omega)]
          exact htFin
        have hhead : h2.store (setPatchTarget setAddr prev)
            = some (setPatchNode ea prev) := by
          rw [← target_def, ← patched_def]; exact ht2
        have hdecv : decode h2 t va = .ok v := by
          refine SV.dec h2 ?_ (show hV.next ≤ h2.next by omega)
          intro y hy1 hy2
          replace hy2 : y < hV.next := hy2
          have hyFin : hFin.store y = hV.store y := by
            cases rest with
            | nil =>
                rw [ihNil rfl, hPstore y (by omega), hEstore y (by omega)]
            | cons r rs =>
                rw [ihFrame y (by left; omega) (by rw [htgt2]; omega),
                  hPstore y (by omega), hEstore y (by omega)]
          rw [hag y (by omega) (by omega), hyFin]
        cases rest with
        | nil =>
            have h1nil : hFin = hP := ihNil rfl
            have hFinP : hFin.next = hP.next := by rw [h1nil]
            have hcell2 : h2.store ea = some (.setElem va 0) := by
              rw [hag ea (by omega) (by omega), h1nil,
                hPstore ea (by omega), hEcell]
            refine ⟨ea, [va], by omega, hhead, ?_, ?_⟩
            · intro fuel hf
              match fuel, hf with
              | f + 1, _ =>
                show (do
                  match ← getCell h2 ea with
                  | .setElem v next =>
                      if next = 0 then Except.ok [v]
                      else do
                        let rest2 ← chainSet h2 f next
                        Except.ok (v :: rest2)
                  | n => Except.error (.expectedArray n.tag)) = .ok [va]
                rw [getCell, hcell2]
                simp [bind, Except.bind]
            · simp [decodeList, hdecv, bind, Except.bind]
        | cons r rs =>
            obtain ⟨e2, ptrsRest, he2ge, he2cell, he2chain, he2dec⟩ :=
              ihDec h2 hag hfuel (by simp)
            have hcell2 : h2.store ea = some (.setElem va e2) := he2cell
            refine ⟨ea, va :: ptrsRest, by omega, hhead, ?_, ?_⟩
            · intro fuel hf
              match fuel, hf with
              | f + 1, hf =>
                show (do
                  match ← getCell h2 ea with
                  | .setElem v next =>
                      if next = 0 then Except.ok [v]
                      else do
                        let rest2 ← chainSet h2 f next
                        Except.ok (v :: rest2)
                  | n => Except.error (.expectedArray n.tag)) = .ok (va :: ptrsRest)
                rw [getCell, hcell2]
                have he2pos : e2 ≠ 0 := by omega
                have hfr : (r :: rs).length ≤ f := by
                  simp only [List.length_cons] at hf ⊢
                  omega
                simp only [bind, Except.bind]
                rw [if_neg he2pos, he2chain f hfr]
            · simp [decodeList, hdecv, he2dec, bind, Except.bind]

/-- The patch target of an object chain step: the object header for the
first entry, the previous chain cell afterwards. -/
def objPatchTarget (objAddr : Nat) : Option (Nat × Nat × Nat) → Nat
  | none => objAddr
  | some (pa, _, _) => pa

/-- The node written at the object patch target when the next cell sits
at `ea`. -/
def objPatchNode (ea : Nat) : Option (Nat × Nat × Nat) → Node
  | none => .objN ea
  | some (_, pk, pv) => .objElem pk pv ea

/-- One run of the map entry loop. -/
theorem encodeObjElems_spec (tk tv : HTy) (objAddr N : Nat) :
    ∀ (vs : List (HVal × HVal)) (prev : Option (Nat × Nat × Nat)) (h : Heap),
    (∀ p ∈ vs, EncInv (Prod.fst p) tk) →
    (∀ p ∈ vs, EncInv (Prod.snd p) tv) →
    N ≤ h.next →
    N ≤ objPatchTarget objAddr prev →
    objPatchTarget objAddr prev < h.next →
    h.next + vs.length ≤ (encodeObjElems objAddr prev vs h).next
    ∧ (∀ x, (x < h.next ∨ (encodeObjElems objAddr prev vs h).next ≤ x) →
        x ≠ objPatchTarget objAddr prev →
        (encodeObjElems objAddr prev vs h).store x = h.store x)
    ∧ (vs = [] → encodeObjElems objAddr prev vs h = h)
    ∧ (vs ≠ [] → ∃ e1, (encodeObjElems objAddr prev vs h).store (objPatchTarget objAddr prev)
        = some (objPatchNode e1 prev))
    ∧ (∀ h2, agreesOn N (encodeObjElems objAddr prev vs h).next
          (encodeObjElems objAddr prev vs h) h2 →
        (encodeObjElems objAddr prev vs h).next ≤ h2.next →
        vs ≠ [] →
        ∃ e1 kvs,
          h.next ≤ e1
          ∧ h2.store (objPatchTarget objAddr prev) = some (objPatchNode e1 prev)
          ∧ (∀ fuel, vs.length ≤ fuel → chainObj h2 fuel e1 = .ok kvs)
          ∧ decodeEntries h2 tk tv kvs = .ok vs) := by
  intro vs
  induction vs with
  | nil =>
      intro prev h _ _ _ _ _
      have hnil : encodeObjElems objAddr prev [] h = h := by rw [encodeObjElems]
      exact ⟨by rw [hnil]; simp, fun x _ _ => by rw [hnil], fun _ => hnil,
        fun hne => absurd rfl hne,
        fun h2 _ _ hne => absurd rfl hne⟩
  | cons p rest ih =>
      intro prev h hinvk hinvv hN hNt hTlt
      obtain ⟨k, v⟩ := p
      have hKI : EncInv k tk := hinvk (k, v) (by simp)
      obtain ⟨SK⟩ : Nonempty (EncStep k tk h) := ⟨hKI h⟩
      set ka : Nat := (encode k h).1 with ka_def
      set hK : Heap := (encode k h).2 with hK_def
      have hVI : EncInv v tv := hinvv (k, v) (by simp)
      obtain ⟨SV⟩ : Nonempty (EncStep v tv hK) := ⟨hVI hK⟩
      set va : Nat := (encode v hK).1 with va_def
      set hV : Heap := (encode v hK).2 with hV_def
      set ea : Nat := hV.next with ea_def
      set hE : Heap := (hV.storeNode (.objElem ka va 0)).2 with hE_def
      have hEnext : hE.next = hV.next + 12 := rfl
      have hEstore : ∀ x, x ≠ ea → hE.store x = hV.store x := by
        intro x hx
        show (if x = hV.next then _ else _) = _
        rw [if_neg hx]
        rfl
      have hEcell : hE.store ea = some (.objElem ka va 0) := by
        show (if hV.next = hV.next then _ else _) = _
        rw [if_pos rfl]
      set target : Nat := objPatchTarget objAddr prev with target_def
      set patched : Node := objPatchNode ea prev with patched_def
      set hP : Heap := hE.write target patched with hP_def
      have hPnext : hP.next = hV.next + 12 := rfl
      have hPstore : ∀ x, x ≠ target → hP.store x = hE.store x := by
        intro x hx
        show (if x = target then _ else _) = _
        rw [if_neg hx]
      have hPcell : hP.store target = some patched := by
        show (if target = target then _ else _) = _
        rw [if_pos rfl]
      have hrun : encodeObjElems objAddr prev ((k, v) :: rest) h
          = encodeObjElems objAddr (some (ea, ka, va)) rest hP := by
        rw [encodeObjElems.eq_def]
        cases prev with
        | none => rfl
        | some q =>
            obtain ⟨pa, pk2, pv2⟩ := q
            rfl
      have hKlt : h.next < hK.next := SK.next_lt
      have hVlt : hK.next < hV.next := SV.next_lt
      have hP_ge : h.next ≤ hP.next := by omega
      have htgt2 : objPatchTarget objAddr (some (ea, ka, va)) = ea := rfl
      obtain ⟨ihNext, ihFrame, ihNil, ihCell, ihDec⟩ :=
        ih (some (ea, ka, va)) hP (fun w hw => hinvk w (by simp [hw]))
          (fun w hw => hinvv w (by simp [hw]))
          (by omega) (by rw [htgt2]; omega) (by rw [htgt2, hPnext]; omega)
      rw [hrun]
      have ihNext2 : hP.next + rest.length ≤ (encodeObjElems objAddr (some (ea, ka, va)) rest hP).next :=
        ihNext
      set hFin : Heap := encodeObjElems objAddr (some (ea, ka, va)) rest hP with hFin_def
      have htFin : hFin.store target = some patched := by
        cases rest with
        | nil => rw [ihNil rfl]; exact hPcell
        | cons r rs =>
            rw [ihFrame target (by left; omega) (by rw [htgt2]; omega)]
            exact hPcell
      refine ⟨by simp only [List.length_cons]; omega, ?_, ?_, ?_, ?_⟩
      · -- frame
        intro x hx hxt
        have hx2 : x < hP.next ∨ hFin.next ≤ x := by
          rcases hx with hx | hx
          · left; omega
          · right; exact hx
        rw [ihFrame x hx2 (by rw [htgt2]; rcases hx with hx | hx <;> omega)]
        rcases hx with hx | hx
        · rw [hPstore x hxt, hEstore x (by omega),
            SV.frame x (by left; show x < hK.next; omega),
            SK.frame x (by left; omega)]
        · rw [hPstore x hxt, hEstore x (by omega),
            SV.frame x (by right; show hV.next ≤ x; omega),
            SK.frame x (by right; show hK.next ≤ x; omega)]
      · -- the nonempty list never equals the empty one
        intro hc
        exact absurd hc (by simp)
      · -- the patched cell in the final heap
        intro _
        exact ⟨ea, by rw [← patched_def]; exact htFin⟩
      · -- decode
        intro h2 hag hfuel _
        have hVle : hV.next ≤ hFin.next := by omega
        have ht2 : h2.store target = some patched := by
          rw [hag target (by omega) (by omega)]
          exact htFin
        have hhead : h2.store (objPatchTarget objAddr prev)
            = some (objPatchNode ea prev) := by
          rw [← target_def, ← patched_def]; exact ht2
        have hdeck : decode h2 tk ka = .ok k := by
          refine SK.dec h2 ?_ (show hK.next ≤ h2.next by omega)
          intro y hy1 hy2
          replace hy2 : y < hK.next := hy2
          have h1 : hP.store y = hK.store y := by
            rw [hPstore y (by omega), hEstore y (by omega),
              SV.frame y (by left; show y < hK.next; omega)]
          have hyFin : hFin.store y = hK.store y := by
            cases rest with
            | nil => rw [ihNil rfl]; exact h1
            | cons r rs =>
                rw [ihFrame y (by left; omega) (by rw [htgt2]; omega)]
                exact h1
          rw [hag y (by omega) (by omega), hyFin]
        have hdecv : decode h2 tv va = .ok v := by
          refine SV.dec h2 ?_ (show hV.next ≤ h2.next by omega)
          intro y hy1 hy2
          replace hy1 : hK.next ≤ y := hy1
          replace hy2 : y < hV.next := hy2
          have hyFin : hFin.store y = hV.store y := by
            cases rest with
            | nil =>
                rw [ihNil rfl, hPstore y (by omega), hEstore y (by omega)]
            | cons r rs =>
                rw [ihFrame y (by left; omega) (by rw [htgt2]; omega),
                  hPstore y (by omega), hEstore y (by omega)]
          rw [hag y (by omega) (by omega), hyFin]
        cases rest with
        | nil =>
            have h1nil : hFin = hP := ihNil rfl
            have hFinP : hFin.next = hP.next := by rw [h1nil]
            have hcell2 : h2.store ea = some (.objElem ka va 0) := by
              rw [hag ea (by omega) (by omega), h1nil,
                hPstore ea (by omega), hEcell]
            refine ⟨ea, [(ka, va)], by omega, hhead, ?_, ?_⟩
            · intro fuel hf
              match fuel, hf with
              | f + 1, _ =>
                show (do
                  match ← getCell h2 ea with
                  | .objElem kq vq next =>
                      if next = 0 then Except.ok [(kq, vq)]
                      else do
                        let rest2 ← chainObj h2 f next
                        Except.ok ((kq, vq) :: rest2)
                  | n => Except.error (.expectedObject n.tag)) = .ok [(ka, va)]
                rw [getCell, hcell2]
                simp [bind, Except.bind]
            · simp [decodeEntries, hdeck, hdecv, bind, Except.bind]
        | cons r rs =>
            obtain ⟨e2, kvsRest, he2ge, he2cell, he2chain, he2dec⟩ :=
              ihDec h2 hag hfuel (by simp)
            have hcell2 : h2.store ea = some (.objElem ka va e2) := he2cell
            refine ⟨ea, (ka, va) :: kvsRest, by omega, hhead, ?_, ?_⟩
            · intro fuel hf
              match fuel, hf with
              | f + 1, hf =>
                show (do
                  match ← getCell h2 ea with
                  | .objElem kq vq next =>
                      if next = 0 then Except.ok [(kq, vq)]
                      else do
                        let rest2 ← chainObj h2 f next
                        Except.ok ((kq, vq) :: rest2)
                  | n => Except.error (.expectedObject n.tag)) = .ok ((ka, va) :: kvsRest)
                rw [getCell, hcell2]
                have he2pos : e2 ≠ 0 := by omega
                have hfr : (r :: rs).length ≤ f := by
                  simp only [List.length_cons] at hf ⊢
                  omega
                simp only [bind, Except.bind]
                rw [if_neg he2pos, he2chain f hfr]
            · simp [decodeEntries, hdeck, hdecv, he2dec, bind, Except.bind]

/-- One run of the struct field loop: keys are encoded as strings and the
decoder checks them against the declared field names in order. -/
theorem encodeFieldElems_spec (objAddr N : Nat) :
    ∀ (fs : List (String × HVal)) (fts : List (String × HTy))
      (prev : Option (Nat × Nat × Nat)) (h : Heap),
    fs.map Prod.fst = fts.map Prod.fst →
    List.Forall₂ EncInv (fs.map Prod.snd) (fts.map Prod.snd) →
    N ≤ h.next →
    N ≤ objPatchTarget objAddr prev →
    objPatchTarget objAddr prev < h.next →
    h.next + fs.length ≤ (encodeFieldElems objAddr prev fs h).next
    ∧ (∀ x, (x < h.next ∨ (encodeFieldElems objAddr prev fs h).next ≤ x) →
        x ≠ objPatchTarget objAddr prev →
        (encodeFieldElems objAddr prev fs h).store x = h.store x)
    ∧ (fs = [] → encodeFieldElems objAddr prev fs h = h)
    ∧ (fs ≠ [] → ∃ e1, (encodeFieldElems objAddr prev fs h).store (objPatchTarget objAddr prev)
        = some (objPatchNode e1 prev))
    ∧ (∀ h2, agreesOn N (encodeFieldElems objAddr prev fs h).next
          (encodeFieldElems objAddr prev fs h) h2 →
        (encodeFieldElems objAddr prev fs h).next ≤ h2.next →
        fs ≠ [] →
        ∃ e1 kvs,
          h.next ≤ e1
          ∧ h2.store (objPatchTarget objAddr prev) = some (objPatchNode e1 prev)
          ∧ (∀ fuel, fs.length ≤ fuel → chainObj h2 fuel e1 = .ok kvs)
          ∧ decodeFields h2 fts kvs = .ok fs) := by
  intro fs
  induction fs with
  | nil =>
      intro fts prev h _ _ _ _ _
      have hnil : encodeFieldElems objAddr prev [] h = h := by rw [encodeFieldElems]
      exact ⟨by rw [hnil]; simp, fun x _ _ => by rw [hnil], fun _ => hnil,
        fun hne => absurd rfl hne,
        fun h2 _ _ hne => absurd rfl hne⟩
  | cons p rest ih =>
      intro fts prev h hnames hinv hN hNt hTlt
      obtain ⟨k, v⟩ := p
      cases fts with
      | nil => simp at hnames
      | cons q fts2 =>
      obtain ⟨name, t⟩ := q
      simp only [List.map_cons, List.cons.injEq] at hnames
      obtain ⟨hn1, hnrest⟩ := hnames
      simp only [List.map_cons] at hinv
      cases hinv with
      | cons hv hrest =>
      obtain ⟨hkaddr, hknext, hkframe, hkdec⟩ := encodeStr_spec k h
      set ka : Nat := (encodeStr k h).1 with ka_def
      set hK : Heap := (encodeStr k h).2 with hK_def
      have hKlt : h.next < hK.next := by omega
      obtain ⟨SV⟩ : Nonempty (EncStep v t hK) := ⟨hv hK⟩
      set va : Nat := (encode v hK).1 with va_def
      set hV : Heap := (encode v hK).2 with hV_def
      set ea : Nat := hV.next with ea_def
      set hE : Heap := (hV.storeNode (.objElem ka va 0)).2 with hE_def
      have hEnext : hE.next = hV.next + 12 := rfl
      have hEstore : ∀ x, x ≠ ea → hE.store x = hV.store x := by
        intro x hx
        show (if x = hV.next then _ else _) = _
        rw [if_neg hx]
        rfl
      have hEcell : hE.store ea = some (.objElem ka va 0) := by
        show (if hV.next = hV.next then _ else _) = _
        rw [if_pos rfl]
      set target : Nat := objPatchTarget objAddr prev with target_def
      set patched : Node := objPatchNode ea prev with patched_def
      set hP : Heap := hE.write target patched with hP_def
      have hPnext : hP.next = hV.next + 12 := rfl
      have hPstore : ∀ x, x ≠ target → hP.store x = hE.store x := by
        intro x hx
        show (if x = target then _ else _) = _
        rw [if_neg hx]
      have hPcell : hP.store target = some patched := by
        show (if target = target then _ else _) = _
        rw [if_pos rfl]
      have hrun : encodeFieldElems objAddr prev ((k, v) :: rest) h
          = encodeFieldElems objAddr (some (ea, ka, va)) rest hP := by
        rw [encodeFieldElems.eq_def]
        cases prev with
        | none => rfl
        | some q =>
            obtain ⟨pa, pk2, pv2⟩ := q
            rfl
      have hVlt : hK.next < hV.next := SV.next_lt
      have hP_ge : h.next ≤ hP.next := by omega
      have htgt2 : objPatchTarget objAddr (some (ea, ka, va)) = ea := rfl
      obtain ⟨ihNext, ihFrame, ihNil, ihCell, ihDec⟩ :=
        ih fts2 (some (ea, ka, va)) hP hnrest hrest
          (by omega) (by rw [htgt2]; omega) (by rw [htgt2, hPnext]; omega)
      rw [hrun]
      have ihNext2 : hP.next + rest.length ≤ (encodeFieldElems objAddr (some (ea, ka, va)) rest hP).next :=
        ihNext
      set hFin : Heap := encodeFieldElems objAddr (some (ea, ka, va)) rest hP with hFin_def
      have htFin : hFin.store target = some patched := by
        cases rest with
        | nil => rw [ihNil rfl]; exact hPcell
        | cons r rs =>
            rw [ihFrame target (by left; omega) (by rw [htgt2]; omega)]
            exact hPcell
      refine ⟨by simp only [List.length_cons]; omega, ?_, ?_, ?_, ?_⟩
      · -- frame
        intro x hx hxt
        have hx2 : x < hP.next ∨ hFin.next ≤ x := by
          rcases hx with hx | hx
          · left; omega
          · right; exact hx
        rw [ihFrame x hx2 (by rw [htgt2]; rcases hx with hx | hx <;> omega)]
        rcases hx with hx | hx
        · rw [hPstore x hxt, hEstore x (by omega),
            SV.frame x (by left; show x < hK.next; omega),
            hkframe x (by left; omega)]
        · rw [hPstore x hxt, hEstore x (by omega),
            SV.frame x (by right; show hV.next ≤ x; omega),
            hkframe x (by right; omega)]
      · -- the nonempty list never equals the empty one
        intro hc
        exact absurd hc (by simp)
      · -- the patched cell in the final heap
        intro _
        exact ⟨ea, by rw [← patched_def]; exact htFin⟩
      · -- decode
        intro h2 hag hfuel _
        have hVle : hV.next ≤ hFin.next := by omega
        have ht2 : h2.store target = some patched := by
          rw [hag target (by omega) (by omega)]
          exact htFin
        have hhead : h2.store (objPatchTarget objAddr prev)
            = some (objPatchNode ea prev) := by
          rw [← target_def, ← patched_def]; exact ht2
        have hagK : agreesOn h.next hK.next hK h2 := by
          intro y hy1 hy2
          have h1 : hP.store y = hK.store y := by
            rw [hPstore y (by omega), hEstore y (by omega),
              SV.frame y (by left; show y < hK.next; omega)]
          have hyFin : hFin.store y = hK.store y := by
            cases rest with
            | nil => rw [ihNil rfl]; exact h1
            | cons r rs =>
                rw [ihFrame y (by left; omega) (by rw [htgt2]; omega)]
                exact h1
          rw [hag y (by omega) (by omega), hyFin]
        obtain ⟨hpk, -⟩ := hkdec h2 hagK
        have hdecv : decode h2 t va = .ok v := by
          refine SV.dec h2 ?_ (show hV.next ≤ h2.next by omega)
          intro y hy1 hy2
          replace hy1 : hK.next ≤ y := hy1
          replace hy2 : y < hV.next := hy2
          have hyFin : hFin.store y = hV.store y := by
            cases rest with
            | nil =>
                rw [ihNil rfl, hPstore y (by omega), hEstore y (by omega)]
            | cons r rs =>
                rw [ihFrame y (by left; omega) (by rw [htgt2]; omega),
                  hPstore y (by omega), hEstore y (by omega)]
          rw [hag y (by omega) (by omega), hyFin]
        cases rest with
        | nil =>
            have h1nil : hFin = hP := ihNil rfl
            have hFinP : hFin.next = hP.next := by rw [h1nil]
            have hcell2 : h2.store ea = some (.objElem ka va 0) := by
              rw [hag ea (by omega) (by omega), h1nil,
                hPstore ea (by omega), hEcell]
            refine ⟨ea, [(ka, va)], by omega, hhead, ?_, ?_⟩
            · intro fuel hf
              match fuel, hf with
              | f + 1, _ =>
                show (do
                  match ← getCell h2 ea with
                  | .objElem kq vq next =>
                      if next = 0 then Except.ok [(kq, vq)]
                      else do
                        let rest2 ← chainObj h2 f next
                        Except.ok ((kq, vq) :: rest2)
                  | n => Except.error (.expectedObject n.tag)) = .ok [(ka, va)]
                rw [getCell, hcell2]
                simp [bind, Except.bind]
            · have hfnil : fts2 = [] := by
                cases fts2 with
                | nil => rfl
                | cons a b => simp at hnrest
              subst hfnil
              simp [decodeFields, hpk, hn1, hdecv, bind, Except.bind]
        | cons r rs =>
            obtain ⟨e2, kvsRest, he2ge, he2cell, he2chain, he2dec⟩ :=
              ihDec h2 hag hfuel (by simp)
            have hcell2 : h2.store ea = some (.objElem ka va e2) := he2cell
            refine ⟨ea, (ka, va) :: kvsRest, by omega, hhead, ?_, ?_⟩
            · intro fuel hf
              match fuel, hf with
              | f + 1, hf =>
                show (do
                  match ← getCell h2 ea with
                  | .objElem kq vq next =>
                      if next = 0 then Except.ok [(kq, vq)]
                      else do
                        let rest2 ← chainObj h2 f next
                        Except.ok ((kq, vq) :: rest2)
                  | n => Except.error (.expectedObject n.tag)) = .ok ((ka, va) :: kvsRest)
                rw [getCell, hcell2]
                have he2pos : e2 ≠ 0 := by omega
                have hfr : (r :: rs).length ≤ f := by
                  simp only [List.length_cons] at hf ⊢
                  omega
                simp only [bind, Except.bind]
                rw [if_neg he2pos, he2chain f hfr]
            · simp [decodeFields, hpk, hn1, hdecv, he2dec, bind, Except.bind]

/-- Pointwise strengthening of `Forall₂` using membership. -/
theorem forall₂_imp_mem {α β : Type} {R S : α → β → Prop} :
    ∀ {l1 : List α} {l2 : List β}, List.Forall₂ R l1 l2 →
    (∀ a ∈ l1, ∀ b, R a b → S a b) → List.Forall₂ S l1 l2 := by
  intro l1 l2 hF
  induction hF with
  | nil => intro _; exact .nil
  | cons h1 h2 ih =>
      intro hmem
      exact .cons (hmem _ (by simp) _ h1)
        (ih (fun a ha b hr => hmem a (by simp [ha]) b hr))

/-- A homogeneous `Forall₂` against a replicated type list from a
membership fact. -/
theorem forall₂_replicate_of_forall_mem {R : HVal → HTy → Prop} {t : HTy} :
    ∀ {vs : List HVal}, (∀ v ∈ vs, R v t) →
    List.Forall₂ R vs (List.replicate vs.length t) := by
  intro vs
  induction vs with
  | nil => intro _; exact .nil
  | cons v rest ih =>
      intro hmem
      simp only [List.length_cons, List.replicate]
      exact .cons (hmem v (by simp)) (ih (fun w hw => hmem w (by simp [hw])))

/-- A membership fact from a homogeneous `Forall₂`. -/
theorem forall_mem_of_forall₂_replicate {R : HVal → HTy → Prop} {t : HTy} :
    ∀ {vs : List HVal} {n : Nat}, List.Forall₂ R vs (List.replicate n t) →
    ∀ v ∈ vs, R v t := by
  intro vs
  induction vs with
  | nil => intro n _ v hv; simp at hv
  | cons w rest ih =>
      intro n hF v hv
      cases n with
      | zero => simp only [List.replicate] at hF; cases hF
      | succ m =>
          simp only [List.replicate] at hF
          cases hF with
          | cons h1 h2 =>
              rcases List.mem_cons.mp hv with rfl | hv2
              · exact h1
              · exact ih h2 v hv2

/-- A tuple decode at a constant type list is a list decode. -/
theorem decodeList_of_decodeTuple (h2 : Heap) (t : HTy) :
    ∀ (ptrs : List Nat) (n : Nat) (vs : List HVal),
    decodeTuple h2 (List.replicate n t) ptrs = .ok vs →
    decodeList h2 t ptrs = .ok vs := by
  intro ptrs
  induction ptrs with
  | nil =>
      intro n vs hdec
      cases n with
      | zero =>
          simp only [List.replicate] at hdec
          rw [decodeTuple] at hdec
          rw [decodeList]
          exact hdec
      | succ m =>
          simp only [List.replicate] at hdec
          rw [decodeTuple.eq_def] at hdec
          simp at hdec
  | cons a rest ih =>
      intro n vs hdec
      cases n with
      | zero =>
          simp only [List.replicate] at hdec
          rw [decodeTuple.eq_def] at hdec
          simp at hdec
      | succ m =>
          simp only [List.replicate] at hdec
          rw [decodeTuple] at hdec
          rw [decodeList]
          cases hda : decode h2 t a with
          | error e => simp [hda, bind, Except.bind] at hdec
          | ok v =>
              simp only [hda, bind, Except.bind] at hdec ⊢
              cases hds : decodeTuple h2 (List.replicate m t) rest with
              | error e => simp [hds] at hdec
              | ok vs2 =>
                  simp only [hds] at hdec
                  rw [ih m vs2 hds]
                  simpa using hdec

/-- `serialize_seq` with a known length: the element table, the array
header and the elements land where `deserialize_seq` looks. -/
theorem encodeArray_spec (vs : List HVal) (ts : List HTy) (h : Heap)
    (hF : List.Forall₂ EncInv vs ts) :
    (encodeArray vs h).1 = h.next + vs.length * 8
    ∧ h.next < (encodeArray vs h).2.next
    ∧ (encodeArray vs h).1 < (encodeArray vs h).2.next
    ∧ (∀ x, x < h.next ∨ (encodeArray vs h).2.next ≤ x →
        (encodeArray vs h).2.store x = h.store x)
    ∧ (∀ h2, agreesOn h.next (encodeArray vs h).2.next (encodeArray vs h).2 h2 →
        h2.store (encodeArray vs h).1 = some (.arrN h.next vs.length))
    ∧ ∀ h2, agreesOn h.next (encodeArray vs h).2.next (encodeArray vs h).2 h2 →
        (encodeArray vs h).2.next ≤ h2.next →
        ∃ ptrs, arrayElemPtrs h2 h.next vs.length = .ok ptrs
            ∧ decodeTuple h2 ts ptrs = .ok vs := by
  have haddr : (encodeArray vs h).1 = h.next + vs.length * 8 := by
    rw [encodeArray]
    rfl
  have hrun : (encodeArray vs h).2
      = encodeArrayElems h.next 0 vs
          ⟨h.next + vs.length * 8 + 16, fun x =>
            if x = h.next + vs.length * 8 then some (.arrN h.next vs.length)
            else h.store x⟩ := by
    rw [encodeArray]
    rfl
  set hH : Heap := ⟨h.next + vs.length * 8 + 16, fun x =>
      if x = h.next + vs.length * 8 then some (.arrN h.next vs.length)
      else h.store x⟩ with hH_def
  have hHnext : hH.next = h.next + vs.length * 8 + 16 := rfl
  obtain ⟨eNext, eFrame, eDec⟩ :=
    encodeArrayElems_spec h.next h.next vs ts 0 hH hF (le_refl _)
      (by rw [hHnext]; omega) (by rw [hHnext]; omega)
  rw [haddr, hrun]
  refine ⟨rfl, by omega, by omega, ?_, ?_, ?_⟩
  · intro x hx
    have hx2 : ¬ (h.next + 0 * 8 ≤ x ∧ x < h.next + (0 + vs.length) * 8) := by
      rcases hx with hx | hx <;> omega
    have hx3 : x < hH.next ∨ (encodeArrayElems h.next 0 vs hH).next ≤ x := by
      rcases hx with hx | hx
      · left; omega
      · right; exact hx
    rw [eFrame x hx3 hx2]
    show (if x = h.next + vs.length * 8 then _ else _) = _
    rw [if_neg (by rcases hx with hx | hx <;> omega)]
  · intro h2 hag
    have h1 : (encodeArrayElems h.next 0 vs hH).store (h.next + vs.length * 8)
        = some (.arrN h.next vs.length) := by
      rw [eFrame (h.next + vs.length * 8) (by left; omega) (by omega)]
      show (if h.next + vs.length * 8 = h.next + vs.length * 8 then _ else _) = _
      rw [if_pos rfl]
    rw [hag (h.next + vs.length * 8) (by omega) (by omega)]
    exact h1
  · intro h2 hag hfuel
    obtain ⟨ptrs, hptrs, hdec⟩ := eDec h2 hag hfuel
    exact ⟨ptrs, hptrs, hdec⟩

/-- The generic part of every leaf case: one `store` of one node. -/
theorem encStep_single (v : HVal) (t : HTy) (nd : Node) (h : Heap)
    (henc : encode v h = h.storeNode nd)
    (hsz : 1 ≤ nd.size)
    (hdec : ∀ h2 : Heap, h2.store h.next = some nd → decode h2 t h.next = .ok v)
    (hroot : (encodesNull v = true → nd = .nullN)
      ∧ (encodesNull v = false → nd ≠ .nullN)) :
    EncStep v t h := by
  have hfst : (encode v h).1 = h.next := by rw [henc]; rfl
  have hnext : (encode v h).2.next = h.next + nd.size := by rw [henc]; rfl
  have hstore : ∀ x, (encode v h).2.store x
      = if x = h.next then some nd else h.store x := by
    intro x; rw [henc]; rfl
  refine ⟨by omega, by omega, by omega, ?_, ?_, ?_⟩
  · intro x hx
    rw [hstore x, if_neg (by rcases hx with hx | hx <;> omega)]
  · intro h2 hag _
    have hcell : h2.store h.next = some nd := by
      rw [hag h.next (le_refl _) (by omega), hstore h.next, if_pos rfl]
    rw [hfst]
    exact hdec h2 hcell
  · intro h2 hag
    have hcell : h2.store h.next = some nd := by
      rw [hag h.next (le_refl _) (by omega), hstore h.next, if_pos rfl]
    rw [hfst]
    cases hnv : encodesNull v with
    | true =>
        simp only [if_pos]
        rw [hcell, hroot.1 hnv]
    | false =>
        simp only [Bool.false_eq_true, if_false]
        exact ⟨nd, hcell, hroot.2 hnv⟩

/-- `serialize_bool` round trip. -/
theorem encInv_vbool (b : Bool) : EncInv (.vbool b) .tbool := by
  intro h
  refine encStep_single _ _ (.boolN b) h (by rw [encode]) (by simp [Node.size]) ?_ ?_
  · intro h2 hcell
    rw [decode, getCell, hcell]
    simp [bind, Except.bind]
  · exact ⟨by intro hc; simp [encodesNull] at hc, by intro _; simp⟩

/-- `serialize_i64` round trip. -/
theorem encInv_vint (i : Int) : EncInv (.vint i) .tint := by
  intro h
  refine encStep_single _ _ (.numInt i) h (by rw [encode]) (by simp [Node.size]) ?_ ?_
  · intro h2 hcell
    rw [decode, getCell, hcell]
    simp [bind, Except.bind]
  · exact ⟨by intro hc; simp [encodesNull] at hc, by intro _; simp⟩

/-- `serialize_f64` round trip. -/
theorem encInv_vfloat (f : F64) : EncInv (.vfloat f) .tfloat := by
  intro h
  refine encStep_single _ _ (.numFloat f) h (by rw [encode]) (by simp [Node.size]) ?_ ?_
  · intro h2 hcell
    rw [decode, getCell, hcell]
    simp [bind, Except.bind]
  · exact ⟨by intro hc; simp [encodesNull] at hc, by intro _; simp⟩

/-- `serialize_unit` round trip. -/
theorem encInv_vunit : EncInv .vunit .tunit := by
  intro h
  refine encStep_single _ _ .nullN h (by rw [encode]) (by simp [Node.size]) ?_ ?_
  · intro h2 hcell
    rw [decode, getCell, hcell]
    simp [bind, Except.bind]
  · exact ⟨fun _ => rfl, by intro hc; simp [encodesNull] at hc⟩

/-- `serialize_none` round trip at an `Option` type. -/
theorem encInv_vnone (t : HTy) : EncInv .vnone (.topt t) := by
  intro h
  refine encStep_single _ _ .nullN h (by rw [encode]) (by simp [Node.size]) ?_ ?_
  · intro h2 hcell
    rw [decode, getCell, hcell]
    simp [bind, Except.bind]
  · exact ⟨fun _ => rfl, by intro hc; simp [encodesNull] at hc⟩

/-- `serialize_str` round trip. -/
theorem encInv_vstr (s : String) : EncInv (.vstr s) .tstr := by
  intro h
  obtain ⟨hkaddr, hknext, hkframe, hkdec⟩ := encodeStr_spec s h
  have henc : encode (.vstr s) h = encodeStr s h := by rw [encode]
  refine ⟨?_, ?_, ?_, ?_, ?_, ?_⟩
  · rw [henc, hknext]; omega
  · rw [henc, hkaddr]; omega
  · rw [henc, hkaddr, hknext]; omega
  · intro x hx
    rw [henc] at hx ⊢
    exact hkframe x hx
  · intro h2 hag _
    rw [henc] at hag ⊢
    obtain ⟨hps, hcell⟩ := hkdec h2 hag
    rw [decode]
    simp [hps, bind, Except.bind]
  · intro h2 hag
    rw [henc] at hag ⊢
    obtain ⟨hps, hcell⟩ := hkdec h2 hag
    simp only [encodesNull, Bool.false_eq_true, if_false]
    exact ⟨_, hcell, by simp⟩

/-- `serialize_char` round trip: a one-character string comes back and
its first character is taken. -/
theorem encInv_vchar (c : Char) : EncInv (.vchar c) .tchar := by
  intro h
  obtain ⟨hkaddr, hknext, hkframe, hkdec⟩ := encodeStr_spec (String.singleton c) h
  have henc : encode (.vchar c) h = encodeStr (String.singleton c) h := by rw [encode]
  have htl : (String.singleton c).toList = [c] := rfl
  refine ⟨?_, ?_, ?_, ?_, ?_, ?_⟩
  · rw [henc, hknext]; omega
  · rw [henc, hkaddr]; omega
  · rw [henc, hkaddr, hknext]; omega
  · intro x hx
    rw [henc] at hx ⊢
    exact hkframe x hx
  · intro h2 hag _
    rw [henc] at hag ⊢
    obtain ⟨hps, hcell⟩ := hkdec h2 hag
    rw [decode]
    simp [hps, htl, bind, Except.bind]
  · intro h2 hag
    rw [henc] at hag ⊢
    obtain ⟨hps, hcell⟩ := hkdec h2 hag
    simp only [encodesNull, Bool.false_eq_true, if_false]
    exact ⟨_, hcell, by simp⟩

/-- `serialize_some` is transparent; a non-null payload comes back as
`Some`. -/
theorem encInv_vsome (v : HVal) (t : HTy) (hv : EncInv v t)
    (hn : encodesNull v = false) : EncInv (.vsome v) (.topt t) := by
  intro h
  have S := hv h
  have henc : encode (.vsome v) h = encode v h := by rw [encode]
  refine ⟨?_, ?_, ?_, ?_, ?_, ?_⟩
  · rw [henc]; exact S.next_lt
  · rw [henc]; exact S.addr_ge
  · rw [henc]; exact S.addr_lt
  · intro x hx
    rw [henc] at hx ⊢
    exact S.frame x hx
  · intro h2 hag hle
    rw [henc] at hag hle ⊢
    have hroot := S.root h2 hag
    rw [hn] at hroot
    simp only [Bool.false_eq_true, if_false] at hroot
    obtain ⟨nd, hcell, hnd⟩ := hroot
    have hdec := S.dec h2 hag hle
    rw [decode, getCell, hcell]
    cases nd with
    | nullN => exact absurd rfl hnd
    | boolN b => simp [bind, Except.bind, hdec]
    | numInt i => simp [bind, Except.bind, hdec]
    | numFloat f => simp [bind, Except.bind, hdec]
    | numRef a l => simp [bind, Except.bind, hdec]
    | strN a b => simp [bind, Except.bind, hdec]
    | arrN a b => simp [bind, Except.bind, hdec]
    | arrElem a b => simp [bind, Except.bind, hdec]
    | objN a => simp [bind, Except.bind, hdec]
    | objElem a b n2 => simp [bind, Except.bind, hdec]
    | setN a => simp [bind, Except.bind, hdec]
    | setElem a b => simp [bind, Except.bind, hdec]
    | raw s2 => simp [bind, Except.bind, hdec]
  · intro h2 hag
    rw [henc] at hag ⊢
    have hroot := S.root h2 hag
    rw [hn] at hroot
    simp only [Bool.false_eq_true, if_false] at hroot
    have hnv : encodesNull (.vsome v) = false := by
      simp [encodesNull, hn]
    rw [hnv]
    simp only [Bool.false_eq_true, if_false]
    exact hroot

/-- `serialize_newtype_struct` is transparent. -/
theorem encInv_vnewtype (v : HVal) (t : HTy) (hv : EncInv v t) :
    EncInv (.vnewtype v) (.tnewtype t) := by
  intro h
  have S := hv h
  have henc : encode (.vnewtype v) h = encode v h := by rw [encode]
  refine ⟨?_, ?_, ?_, ?_, ?_, ?_⟩
  · rw [henc]; exact S.next_lt
  · rw [henc]; exact S.addr_ge
  · rw [henc]; exact S.addr_lt
  · intro x hx
    rw [henc] at hx ⊢
    exact S.frame x hx
  · intro h2 hag hle
    rw [henc] at hag hle ⊢
    have hdec := S.dec h2 hag hle
    rw [decode]
    simp [bind, Except.bind, hdec]
  · intro h2 hag
    rw [henc] at hag ⊢
    have hroot := S.root h2 hag
    have hnv : encodesNull (.vnewtype v) = encodesNull v := by
      simp [encodesNull]
    rw [hnv]
    exact hroot

/-- A unit variant is serialized as its name string and decoded through
the unit-variant path. -/
theorem encInv_vunitVariant (name : String) (vars : List (String × VariantTy))
    (hf : findVariant vars name = some .unitV) :
    EncInv (.vunitVariant name) (.tenum vars) := by
  intro h
  obtain ⟨hkaddr, hknext, hkframe, hkdec⟩ := encodeStr_spec name h
  have henc : encode (.vunitVariant name) h = encodeStr name h := by rw [encode]
  refine ⟨?_, ?_, ?_, ?_, ?_, ?_⟩
  · rw [henc, hknext]; omega
  · rw [henc, hkaddr]; omega
  · rw [henc, hkaddr, hknext]; omega
  · intro x hx
    rw [henc] at hx ⊢
    exact hkframe x hx
  · intro h2 hag _
    rw [henc] at hag ⊢
    obtain ⟨hps, hcell⟩ := hkdec h2 hag
    rw [parseString, getCell, hcell] at hps
    simp only [bind, Except.bind] at hps
    rw [decode, getCell, hcell]
    simp [bind, Except.bind, hps, decodeUnitVariant, hf]
  · intro h2 hag
    rw [henc] at hag ⊢
    obtain ⟨hps, hcell⟩ := hkdec h2 hag
    simp only [encodesNull, Bool.false_eq_true, if_false]
    exact ⟨_, hcell, by simp⟩

/-- `SerializeStruct`: the object header and the field chain land where
`deserialize_struct` looks. -/
theorem encodeFieldsObj_spec (fs : List (String × HVal)) (fts : List (String × HTy))
    (h : Heap) (hnames : fs.map Prod.fst = fts.map Prod.fst)
    (hF : List.Forall₂ EncInv (fs.map Prod.snd) (fts.map Prod.snd)) :
    (encodeFieldsObj fs h).1 = h.next
    ∧ h.next < (encodeFieldsObj fs h).2.next
    ∧ (∀ x, x < h.next ∨ (encodeFieldsObj fs h).2.next ≤ x →
        (encodeFieldsObj fs h).2.store x = h.store x)
    ∧ (∀ h2, agreesOn h.next (encodeFieldsObj fs h).2.next (encodeFieldsObj fs h).2 h2 →
        ∃ hd, h2.store h.next = some (.objN hd))
    ∧ ∀ h2, agreesOn h.next (encodeFieldsObj fs h).2.next (encodeFieldsObj fs h).2 h2 →
        (encodeFieldsObj fs h).2.next ≤ h2.next →
        ∃ kvs, objKvs h2 h.next = .ok kvs ∧ decodeFields h2 fts kvs = .ok fs := by
  have haddr : (encodeFieldsObj fs h).1 = h.next := by
    rw [encodeFieldsObj]
    rfl
  have hrun : (encodeFieldsObj fs h).2
      = encodeFieldElems h.next none fs
          ⟨h.next + 8, fun x => if x = h.next then some (.objN 0) else h.store x⟩ := by
    rw [encodeFieldsObj]
    rfl
  set hH : Heap := ⟨h.next + 8, fun x =>
      if x = h.next then some (.objN 0) else h.store x⟩ with hH_def
  have hHnext : hH.next = h.next + 8 := rfl
  obtain ⟨eNext, eFrame, eNil, eCell, eDec⟩ :=
    encodeFieldElems_spec h.next h.next fs fts none hH hnames hF
      (by rw [hHnext]; omega)
      (le_refl h.next)
      (show h.next < hH.next by rw [hHnext]; omega)
  rw [haddr, hrun]
  have hlen : 0 ≤ fs.length := Nat.zero_le _
  refine ⟨rfl, by omega, ?_, ?_, ?_⟩
  · intro x hx
    have hx2 : x < hH.next ∨ (encodeFieldElems h.next none fs hH).next ≤ x := by
      rcases hx with hx | hx
      · left; omega
      · right; exact hx
    rw [eFrame x hx2 (show x ≠ h.next by rcases hx with hx | hx <;> omega)]
    show (if x = h.next then _ else _) = _
    rw [if_neg (by rcases hx with hx | hx <;> omega)]
  · intro h2 hag
    cases hfs : fs with
    | nil =>
        subst hfs
        have hnil := eNil rfl
        refine ⟨0, ?_⟩
        rw [hag h.next (le_refl _) (by omega), hnil]
        show (if h.next = h.next then _ else _) = _
        rw [if_pos rfl]
    | cons f fs2 =>
        subst hfs
        obtain ⟨e1, hcell⟩ := eCell (by simp)
        refine ⟨e1, ?_⟩
        rw [hag h.next (le_refl _) (by omega)]
        exact hcell
  · intro h2 hag hle
    cases hfs : fs with
    | nil =>
        subst hfs
        have hnil := eNil rfl
        have hcell : h2.store h.next = some (.objN 0) := by
          rw [hag h.next (le_refl _) (by omega), hnil]
          show (if h.next = h.next then _ else _) = _
          rw [if_pos rfl]
        have hftsnil : fts = [] := by
          cases fts with
          | nil => rfl
          | cons a b => simp at hnames
        subst hftsnil
        refine ⟨[], ?_, ?_⟩
        · rw [objKvs, getCell, hcell]
          simp [bind, Except.bind]
        · rw [decodeFields]
    | cons f fs2 =>
        subst hfs
        simp only [List.length_cons] at eNext
        obtain ⟨e1, kvs, he1ge, hhead, hchain, hdecf⟩ := eDec h2 hag hle (by simp)
        have hheadcell : h2.store h.next = some (.objN e1) := hhead
        refine ⟨kvs, ?_, hdecf⟩
        rw [objKvs, getCell, hheadcell]
        have he1pos : e1 ≠ 0 := by omega
        simp only [bind, Except.bind]
        rw [if_neg he1pos]
        exact hchain h2.next (by simp only [List.length_cons]; omega)

/-- `serialize_seq` decoded as a tuple (`serialize_tuple` and
`serialize_tuple_struct` take the same path). -/
theorem encInv_vseq_tuple (vs : List HVal) (ts : List HTy)
    (hF : List.Forall₂ EncInv vs ts) : EncInv (.vseq vs) (.ttuple ts) := by
  intro h
  obtain ⟨haddr, hnlt, halt, hframe, hhead, hdec⟩ := encodeArray_spec vs ts h hF
  have henc : encode (.vseq vs) h = encodeArray vs h := by rw [encode]
  refine ⟨?_, ?_, ?_, ?_, ?_, ?_⟩
  · rw [henc]; exact hnlt
  · rw [henc, haddr]; omega
  · rw [henc]; exact halt
  · intro x hx
    rw [henc] at hx ⊢
    exact hframe x hx
  · intro h2 hag hle
    rw [henc] at hag hle ⊢
    obtain ⟨ptrs, hptrs, hdt⟩ := hdec h2 hag hle
    have hseq : seqPtrs h2 (encodeArray vs h).1 = .ok ptrs := by
      rw [seqPtrs, getCell, hhead h2 hag]
      simp only [bind, Except.bind]
      exact hptrs
    rw [decode]
    simp [bind, Except.bind, hseq, hdt]
  · intro h2 hag
    rw [henc] at hag ⊢
    simp only [encodesNull, Bool.false_eq_true, if_false]
    exact ⟨_, hhead h2 hag, by simp⟩

/-- `serialize_seq` decoded as a homogeneous sequence. -/
theorem encInv_vseq (vs : List HVal) (t : HTy)
    (hm : ∀ v ∈ vs, EncInv v t) : EncInv (.vseq vs) (.tseq t) := by
  intro h
  have hF := forall₂_replicate_of_forall_mem hm
  obtain ⟨haddr, hnlt, halt, hframe, hhead, hdec⟩ :=
    encodeArray_spec vs (List.replicate vs.length t) h hF
  have henc : encode (.vseq vs) h = encodeArray vs h := by rw [encode]
  refine ⟨?_, ?_, ?_, ?_, ?_, ?_⟩
  · rw [henc]; exact hnlt
  · rw [henc, haddr]; omega
  · rw [henc]; exact halt
  · intro x hx
    rw [henc] at hx ⊢
    exact hframe x hx
  · intro h2 hag hle
    rw [henc] at hag hle ⊢
    obtain ⟨ptrs, hptrs, hdt⟩ := hdec h2 hag hle
    have hdl : decodeList h2 t ptrs = .ok vs :=
      decodeList_of_decodeTuple h2 t ptrs vs.length vs hdt
    have hseq : seqPtrs h2 (encodeArray vs h).1 = .ok ptrs := by
      rw [seqPtrs, getCell, hhead h2 hag]
      simp only [bind, Except.bind]
      exact hptrs
    rw [decode]
    simp [bind, Except.bind, hseq, hdl]
  · intro h2 hag
    rw [henc] at hag ⊢
    simp only [encodesNull, Bool.false_eq_true, if_false]
    exact ⟨_, hhead h2 hag, by simp⟩

/-- `serialize_struct` round trip. -/
theorem encInv_vstruct (fs : List (String × HVal)) (fts : List (String × HTy))
    (hnames : fs.map Prod.fst = fts.map Prod.fst)
    (hF : List.Forall₂ EncInv (fs.map Prod.snd) (fts.map Prod.snd)) :
    EncInv (.vstruct fs) (.tstruct fts) := by
  intro h
  obtain ⟨haddr, hnlt, hframe, hhead, hdec⟩ := encodeFieldsObj_spec fs fts h hnames hF
  have henc : encode (.vstruct fs) h = encodeFieldsObj fs h := by rw [encode]
  refine ⟨?_, ?_, ?_, ?_, ?_, ?_⟩
  · rw [henc]; exact hnlt
  · rw [henc, haddr]
  · rw [henc, haddr]; exact hnlt
  · intro x hx
    rw [henc] at hx ⊢
    exact hframe x hx
  · intro h2 hag hle
    rw [henc] at hag hle ⊢
    obtain ⟨kvs, hkvs, hdf⟩ := hdec h2 hag hle
    rw [decode]
    simp [bind, Except.bind, haddr, hkvs, hdf]
  · intro h2 hag
    rw [henc] at hag ⊢
    obtain ⟨hd, hcell⟩ := hhead h2 hag
    simp only [encodesNull, Bool.false_eq_true, if_false]
    rw [haddr]
    exact ⟨_, hcell, by simp⟩

/-- `serialize_set` (through the marker struct) round trip. -/
theorem encInv_vset (vs : List HVal) (t : HTy)
    (hm : ∀ v ∈ vs, EncInv v t) : EncInv (.vset vs) (.tset t) := by
  intro h
  have haddr : (encode (.vset vs) h).1 = h.next := by rw [encode]; rfl
  have hrun : (encode (.vset vs) h).2
      = encodeSetElems h.next none vs
          ⟨h.next + 8, fun x => if x = h.next then some (.setN 0) else h.store x⟩ := by
    rw [encode]; rfl
  set hH : Heap := ⟨h.next + 8, fun x =>
      if x = h.next then some (.setN 0) else h.store x⟩ with hH_def
  have hHnext : hH.next = h.next + 8 := rfl
  obtain ⟨eNext, eFrame, eNil, eCell, eDec⟩ :=
    encodeSetElems_spec t h.next h.next vs none hH hm
      (by rw [hHnext]; omega)
      (le_refl h.next)
      (show h.next < hH.next by rw [hHnext]; omega)
  refine ⟨?_, ?_, ?_, ?_, ?_, ?_⟩
  · rw [hrun]; omega
  · rw [haddr]
  · rw [haddr, hrun]; omega
  · intro x hx
    rw [hrun] at hx ⊢
    have hx2 : x < hH.next ∨ (encodeSetElems h.next none vs hH).next ≤ x := by
      rcases hx with hx | hx
      · left; omega
      · right; exact hx
    rw [eFrame x hx2 (show x ≠ h.next by rcases hx with hx | hx <;> omega)]
    show (if x = h.next then _ else _) = _
    rw [if_neg (by rcases hx with hx | hx <;> omega)]
  · intro h2 hag hle
    rw [hrun] at hag hle
    rw [haddr, decode]
    cases hvs : vs with
    | nil =>
        subst hvs
        have hnil := eNil rfl
        have hcell : h2.store h.next = some (.setN 0) := by
          rw [hag h.next (le_refl _) (by omega), hnil]
          show (if h.next = h.next then _ else _) = _
          rw [if_pos rfl]
        rw [getCell, hcell]
        simp [bind, Except.bind, decodeList]
    | cons v rest =>
        subst hvs
        simp only [List.length_cons] at eNext
        obtain ⟨e1, ptrs, he1ge, hhead, hchain, hdl⟩ := eDec h2 hag hle (by simp)
        have hcell : h2.store h.next = some (.setN e1) := hhead
        rw [getCell, hcell]
        have he1pos : e1 ≠ 0 := by omega
        simp only [bind, Except.bind]
        rw [if_neg he1pos,
          hchain h2.next (by simp only [List.length_cons]; omega)]
        simp [hdl, bind, Except.bind]
  · intro h2 hag
    rw [hrun] at hag
    simp only [encodesNull, Bool.false_eq_true, if_false]
    rw [haddr]
    cases hvs : vs with
    | nil =>
        subst hvs
        have hnil := eNil rfl
        refine ⟨.setN 0, ?_, by simp⟩
        rw [hag h.next (le_refl _) (by omega), hnil]
        show (if h.next = h.next then _ else _) = _
        rw [if_pos rfl]
    | cons v rest =>
        subst hvs
        obtain ⟨e1, hcell⟩ := eCell (by simp)
        refine ⟨.setN e1, ?_, by simp⟩
        rw [hag h.next (le_refl _) (by omega)]
        exact hcell

/-- `serialize_map` with a known length round trip. -/
theorem encInv_vmap (entries : List (HVal × HVal)) (tk tv : HTy)
    (hk : ∀ p ∈ entries, EncInv (Prod.fst p) tk)
    (hv : ∀ p ∈ entries, EncInv (Prod.snd p) tv) :
    EncInv (.vmap entries) (.tmap tk tv) := by
  intro h
  have haddr : (encode (.vmap entries) h).1 = h.next := by rw [encode]; rfl
  have hrun : (encode (.vmap entries) h).2
      = encodeObjElems h.next none entries
          ⟨h.next + 8, fun x => if x = h.next then some (.objN 0) else h.store x⟩ := by
    rw [encode]; rfl
  set hH : Heap := ⟨h.next + 8, fun x =>
      if x = h.next then some (.objN 0) else h.store x⟩ with hH_def
  have hHnext : hH.next = h.next + 8 := rfl
  obtain ⟨eNext, eFrame, eNil, eCell, eDec⟩ :=
    encodeObjElems_spec tk tv h.next h.next entries none hH hk hv
      (by rw [hHnext]; omega)
      (le_refl h.next)
      (show h.next < hH.next by rw [hHnext]; omega)
  refine ⟨?_, ?_, ?_, ?_, ?_, ?_⟩
  · rw [hrun]; omega
  · rw [haddr]
  · rw [haddr, hrun]; omega
  · intro x hx
    rw [hrun] at hx ⊢
    have hx2 : x < hH.next ∨ (encodeObjElems h.next none entries hH).next ≤ x := by
      rcases hx with hx | hx
      · left; omega
      · right; exact hx
    rw [eFrame x hx2 (show x ≠ h.next by rcases hx with hx | hx <;> omega)]
    show (if x = h.next then _ else _) = _
    rw [if_neg (by rcases hx with hx | hx <;> omega)]
  · intro h2 hag hle
    rw [hrun] at hag hle
    rw [haddr, decode]
    cases hes : entries with
    | nil =>
        subst hes
        have hnil := eNil rfl
        have hcell : h2.store h.next = some (.objN 0) := by
          rw [hag h.next (le_refl _) (by omega), hnil]
          show (if h.next = h.next then _ else _) = _
          rw [if_pos rfl]
        rw [objKvs, getCell, hcell]
        simp [bind, Except.bind, decodeEntries]
    | cons p rest =>
        subst hes
        simp only [List.length_cons] at eNext
        obtain ⟨e1, kvs, he1ge, hhead, hchain, hde⟩ := eDec h2 hag hle (by simp)
        have hcell : h2.store h.next = some (.objN e1) := hhead
        rw [objKvs, getCell, hcell]
        have he1pos : e1 ≠ 0 := by omega
        simp only [bind, Except.bind]
        rw [if_neg he1pos,
          hchain h2.next (by simp only [List.length_cons]; omega)]
        simp [hde, bind, Except.bind]
  · intro h2 hag
    rw [hrun] at hag
    simp only [encodesNull, Bool.false_eq_true, if_false]
    rw [haddr]
    cases hes : entries with
    | nil =>
        subst hes
        have hnil := eNil rfl
        refine ⟨.objN 0, ?_, by simp⟩
        rw [hag h.next (le_refl _) (by omega), hnil]
        show (if h.next = h.next then _ else _) = _
        rw [if_pos rfl]
    | cons p rest =>
        subst hes
        obtain ⟨e1, hcell⟩ := eCell (by simp)
        refine ⟨.objN e1, ?_, by simp⟩
        rw [hag h.next (le_refl _) (by omega)]
        exact hcell

/-- The four payload shapes of the enum object path, by declared variant. -/
def variantPayloadDecoder (h2 : Heap) (name : String) (vPtr : Nat) :
    VariantTy → Except SerdeError HVal
  | .unitV => .error (.expectedString 0)
  | .newtypeV t => do
      let v ← decode h2 t vPtr
      .ok (.vnewtypeVariant name v)
  | .tupleV ts => do
      let ptrs ← seqPtrs h2 vPtr
      let vs ← decodeTuple h2 ts ptrs
      .ok (.vtupleVariant name vs)
  | .structV fts => do
      let kvs ← objKvs h2 vPtr
      let fs ← decodeFields h2 fts kvs
      .ok (.vstructVariant name fs)

/-- The walk of `decodeVariantPayload` lands on the declared variant. -/
theorem decodeVariantPayload_eq (h2 : Heap) (name : String) (vPtr : Nat) :
    ∀ (vars : List (String × VariantTy)) (vt : VariantTy),
    findVariant vars name = some vt →
    decodeVariantPayload h2 vars name vPtr = variantPayloadDecoder h2 name vPtr vt := by
  intro vars
  induction vars with
  | nil =>
      intro vt hf
      simp [findVariant] at hf
  | cons q rest ih =>
      intro vt hf
      obtain ⟨n, w⟩ := q
      by_cases hn : n = name
      · subst hn
        simp [findVariant, List.find?] at hf
        subst hf
        rw [decodeVariantPayload.eq_def]
        cases w <;> simp [variantPayloadDecoder]
      · rw [decodeVariantPayload.eq_def]
        have hn2 : (decide (n = name)) = false := by simp [hn]
        simp only [hn2, if_neg hn]
        apply ih
        simpa [findVariant, List.find?, hn2] using hf

/-- A newtype variant is serialized as the one-entry object
`{ name: value }` and decoded through the enum object path. -/
theorem encInv_vnewtypeVariant (name : String) (v : HVal) (t : HTy)
    (vars : List (String × VariantTy))
    (hf : findVariant vars name = some (.newtypeV t)) (hv : EncInv v t) :
    EncInv (.vnewtypeVariant name v) (.tenum vars) := by
  intro h
  set h0 : Heap := ⟨h.next + 8, fun x =>
      if x = h.next then some (.objN 0) else h.store x⟩ with h0_def
  have h0next : h0.next = h.next + 8 := rfl
  obtain ⟨hkaddr, hknext, hkframe, hkdec⟩ := encodeStr_spec name h0
  set ka : Nat := (encodeStr name h0).1 with ka_def
  set h1 : Heap := (encodeStr name h0).2 with h1_def
  obtain ⟨SV⟩ : Nonempty (EncStep v t h1) := ⟨hv h1⟩
  set va : Nat := (encode v h1).1 with va_def
  set h2V : Heap := (encode v h1).2 with h2V_def
  set ea : Nat := h2V.next with ea_def
  set h3 : Heap := (h2V.storeNode (.objElem ka va 0)).2 with h3_def
  have h3next : h3.next = h2V.next + 12 := rfl
  have h3store : ∀ x, x ≠ ea → h3.store x = h2V.store x := by
    intro x hx
    show (if x = h2V.next then _ else _) = _
    rw [if_neg hx]
    rfl
  have h3cell : h3.store ea = some (.objElem ka va 0) := by
    show (if h2V.next = h2V.next then _ else _) = _
    rw [if_pos rfl]
  set hF : Heap := h3.write h.next (.objN ea) with hF_def
  have hFnext : hF.next = h2V.next + 12 := rfl
  have hFstore : ∀ x, x ≠ h.next → hF.store x = h3.store x := by
    intro x hx
    show (if x = h.next then _ else _) = _
    rw [if_neg hx]
  have hFcell : hF.store h.next = some (.objN ea) := by
    show (if h.next = h.next then _ else _) = _
    rw [if_pos rfl]
  have henc1 : (encode (.vnewtypeVariant name v) h).1 = h.next := by
    rw [encode]
    rfl
  have henc2 : (encode (.vnewtypeVariant name v) h).2 = hF := by
    rw [encode]
    rfl
  have h1lt : h0.next < h1.next := by omega
  have hklt : ka < h1.next := by omega
  have hkge : h0.next ≤ ka := by omega
  have hVlt : h1.next < h2V.next := SV.next_lt
  have hVge : h1.next ≤ va := SV.addr_ge
  have hValt : va < h2V.next := SV.addr_lt
  refine ⟨?_, ?_, ?_, ?_, ?_, ?_⟩
  · rw [henc2, hFnext]; omega
  · rw [henc1]
  · rw [henc1, henc2, hFnext]; omega
  · intro x hx
    rw [henc2] at hx ⊢
    have hxv : x < h1.next ∨ h2V.next ≤ x := by
      rcases hx with hx | hx
      · exact Or.inl (by omega)
      · exact Or.inr (by omega)
    have hxk : x < h0.next ∨ h1.next ≤ x := by
      rcases hx with hx | hx
      · exact Or.inl (by omega)
      · exact Or.inr (by omega)
    rw [hFstore x (by omega), h3store x (by omega),
      SV.frame x hxv, hkframe x hxk]
    show (if x = h.next then _ else _) = _
    rw [if_neg (by omega)]
  · intro h2 hag hle
    rw [henc2] at hag hle
    rw [henc1]
    have hcell0 : h2.store h.next = some (.objN ea) := by
      rw [hag h.next (le_refl _) (by omega)]
      exact hFcell
    have hcellE : h2.store ea = some (.objElem ka va 0) := by
      rw [hag ea (by omega) (by omega), hFstore ea (by omega)]
      exact h3cell
    obtain ⟨hps, -⟩ := hkdec h2 (by
      intro y hy1 hy2
      replace hy2 : y < h1.next := hy2
      rw [hag y (by omega) (by omega), hFstore y (by omega),
        h3store y (by omega), SV.frame y (by left; show y < h1.next; omega)])
    have hdecv : decode h2 t va = .ok v := by
      refine SV.dec h2 ?_ (show h2V.next ≤ h2.next by omega)
      intro y hy1 hy2
      replace hy1 : h1.next ≤ y := hy1
      replace hy2 : y < h2V.next := hy2
      rw [hag y (by omega) (by omega), hFstore y (by omega),
        h3store y (by omega)]
    rw [decode, getCell, hcell0]
    simp only [bind, Except.bind]
    rw [getCell, hcellE]
    simp only [bind, Except.bind]
    rw [hps]
    simp only [bind, Except.bind]
    rw [decodeVariantPayload_eq h2 name va vars _ hf, variantPayloadDecoder]
    simp [bind, Except.bind, hdecv]
  · intro h2 hag
    rw [henc2] at hag
    rw [henc1]
    have hcell0 : h2.store h.next = some (.objN ea) := by
      rw [hag h.next (le_refl _) (by omega)]
      exact hFcell
    simp only [encodesNull, Bool.false_eq_true, if_false]
    exact ⟨_, hcell0, by simp⟩

/-- A tuple variant is serialized as `{ name: [payload…] }` with the
element cell patched after the array, and decoded through the enum object
path. -/
theorem encInv_vtupleVariant (name : String) (vs : List HVal) (ts : List HTy)
    (vars : List (String × VariantTy))
    (hf : findVariant vars name = some (.tupleV ts))
    (hFa : List.Forall₂ EncInv vs ts) :
    EncInv (.vtupleVariant name vs) (.tenum vars) := by
  intro h
  obtain ⟨hkaddr, hknext, hkframe, hkdec⟩ := encodeStr_spec name h
  set ka : Nat := (encodeStr name h).1 with ka_def
  set h1 : Heap := (encodeStr name h).2 with h1_def
  set eAddr : Nat := h1.next with eAddr_def
  set h2E : Heap := (h1.storeNode (.objElem ka 0 0)).2 with h2E_def
  have h2Enext : h2E.next = h1.next + 12 := rfl
  have h2Estore : ∀ x, x ≠ eAddr → h2E.store x = h1.store x := by
    intro x hx
    show (if x = h1.next then _ else _) = _
    rw [if_neg hx]
    rfl
  set hdrAddr : Nat := h2E.next with hdrAddr_def
  set h3O : Heap := (h2E.storeNode (.objN eAddr)).2 with h3O_def
  have h3Onext : h3O.next = h2E.next + 8 := rfl
  have h3Ostore : ∀ x, x ≠ hdrAddr → h3O.store x = h2E.store x := by
    intro x hx
    show (if x = h2E.next then _ else _) = _
    rw [if_neg hx]
    rfl
  have h3Ocell : h3O.store hdrAddr = some (.objN eAddr) := by
    show (if h2E.next = h2E.next then _ else _) = _
    rw [if_pos rfl]
  obtain ⟨aaddr, anlt, aalt, aframe, ahead, adec⟩ := encodeArray_spec vs ts h3O hFa
  set arrAddr : Nat := (encodeArray vs h3O).1 with arrAddr_def
  set h4 : Heap := (encodeArray vs h3O).2 with h4_def
  set hF : Heap := h4.write eAddr (.objElem ka arrAddr 0) with hF_def
  have hFnext : hF.next = h4.next := rfl
  have hFstore : ∀ x, x ≠ eAddr → hF.store x = h4.store x := by
    intro x hx
    show (if x = eAddr then _ else _) = _
    rw [if_neg hx]
  have hFcell : hF.store eAddr = some (.objElem ka arrAddr 0) := by
    show (if eAddr = eAddr then _ else _) = _
    rw [if_pos rfl]
  have henc1 : (encode (.vtupleVariant name vs) h).1 = hdrAddr := by
    rw [encode]
    rfl
  have henc2 : (encode (.vtupleVariant name vs) h).2 = hF := by
    rw [encode]
    rfl
  have hklt : h.next < h1.next := by omega
  have hkage : h.next ≤ ka := by omega
  have hkalt : ka < h1.next := by omega
  refine ⟨?_, ?_, ?_, ?_, ?_, ?_⟩
  · rw [henc2, hFnext]; omega
  · rw [henc1]; omega
  · rw [henc1, henc2, hFnext]; omega
  · intro x hx
    rw [henc2] at hx ⊢
    rw [hFnext] at hx
    have hxa : x < h3O.next ∨ h4.next ≤ x := by
      rcases hx with hx | hx
      · exact Or.inl (by omega)
      · exact Or.inr (by omega)
    have hxk : x < h.next ∨ h1.next ≤ x := by
      rcases hx with hx | hx
      · exact Or.inl (by omega)
      · exact Or.inr (by omega)
    rw [hFstore x (by omega), aframe x hxa, h3Ostore x (by omega),
      h2Estore x (by omega), hkframe x hxk]
  · intro h2 hag hle
    rw [henc2] at hag hle
    rw [henc1]
    rw [hFnext] at hle
    have hagR : ∀ y, h.next ≤ y → y < h4.next → h2.store y = hF.store y := by
      intro y hy1 hy2
      exact hag y hy1 (by rw [hFnext]; omega)
    have hcellH : h2.store hdrAddr = some (.objN eAddr) := by
      rw [hagR hdrAddr (by omega) (by omega), hFstore hdrAddr (by omega),
        aframe hdrAddr (Or.inl (by omega))]
      exact h3Ocell
    have hcellE : h2.store eAddr = some (.objElem ka arrAddr 0) := by
      rw [hagR eAddr (by omega) (by omega)]
      exact hFcell
    obtain ⟨hps, -⟩ := hkdec h2 (by
      intro y hy1 hy2
      replace hy2 : y < h1.next := hy2
      rw [hagR y (by omega) (by omega), hFstore y (by omega),
        aframe y (Or.inl (by omega)), h3Ostore y (by omega),
        h2Estore y (by omega)])
    have hagA : agreesOn h3O.next h4.next h4 h2 := by
      intro y hy1 hy2
      rw [hagR y (by omega) (by omega), hFstore y (by omega)]
    have harr : h2.store arrAddr = some (.arrN h3O.next vs.length) :=
      ahead h2 hagA
    obtain ⟨ptrs, hptrs, hdt⟩ := adec h2 hagA (by omega)
    rw [decode, getCell, hcellH]
    simp only [bind, Except.bind]
    rw [getCell, hcellE]
    simp only [bind, Except.bind]
    rw [hps]
    simp only [bind, Except.bind]
    rw [decodeVariantPayload_eq h2 name arrAddr vars _ hf, variantPayloadDecoder]
    have hseq : seqPtrs h2 arrAddr = .ok ptrs := by
      rw [seqPtrs, getCell, harr]
      simp only [bind, Except.bind]
      exact hptrs
    simp [bind, Except.bind, hseq, hdt]
  · intro h2 hag
    rw [henc2] at hag
    rw [henc1]
    have hcellH : h2.store hdrAddr = some (.objN eAddr) := by
      rw [hag hdrAddr (by omega) (by rw [hFnext]; omega),
        hFstore hdrAddr (by omega), aframe hdrAddr (Or.inl (by omega))]
      exact h3Ocell
    simp only [encodesNull, Bool.false_eq_true, if_false]
    exact ⟨_, hcellH, by simp⟩

/-- A struct variant is serialized as `{ name: {fields…} }` with the
element cell patched after the field object, and decoded through the enum
object path. -/
theorem encInv_vstructVariant (name : String) (fs : List (String × HVal))
    (fts : List (String × HTy)) (vars : List (String × VariantTy))
    (hf : findVariant vars name = some (.structV fts))
    (hnames : fs.map Prod.fst = fts.map Prod.fst)
    (hFa : List.Forall₂ EncInv (fs.map Prod.snd) (fts.map Prod.snd)) :
    EncInv (.vstructVariant name fs) (.tenum vars) := by
  intro h
  obtain ⟨hkaddr, hknext, hkframe, hkdec⟩ := encodeStr_spec name h
  set ka : Nat := (encodeStr name h).1 with ka_def
  set h1 : Heap := (encodeStr name h).2 with h1_def
  set eAddr : Nat := h1.next with eAddr_def
  set h2E : Heap := (h1.storeNode (.objElem ka 0 0)).2 with h2E_def
  have h2Enext : h2E.next = h1.next + 12 := rfl
  have h2Estore : ∀ x, x ≠ eAddr → h2E.store x = h1.store x := by
    intro x hx
    show (if x = h1.next then _ else _) = _
    rw [if_neg hx]
    rfl
  set hdrAddr : Nat := h2E.next with hdrAddr_def
  set h3O : Heap := (h2E.storeNode (.objN eAddr)).2 with h3O_def
  have h3Onext : h3O.next = h2E.next + 8 := rfl
  have h3Ostore : ∀ x, x ≠ hdrAddr → h3O.store x = h2E.store x := by
    intro x hx
    show (if x = h2E.next then _ else _) = _
    rw [if_neg hx]
    rfl
  have h3Ocell : h3O.store hdrAddr = some (.objN eAddr) := by
    show (if h2E.next = h2E.next then _ else _) = _
    rw [if_pos rfl]
  obtain ⟨faddr, fnlt, fframe, fhead, fdec⟩ := encodeFieldsObj_spec fs fts h3O hnames hFa
  set objAddr : Nat := (encodeFieldsObj fs h3O).1 with objAddr_def
  set h4 : Heap := (encodeFieldsObj fs h3O).2 with h4_def
  set hF : Heap := h4.write eAddr (.objElem ka objAddr 0) with hF_def
  have hFnext : hF.next = h4.next := rfl
  have hFstore : ∀ x, x ≠ eAddr → hF.store x = h4.store x := by
    intro x hx
    show (if x = eAddr then _ else _) = _
    rw [if_neg hx]
  have hFcell : hF.store eAddr = some (.objElem ka objAddr 0) := by
    show (if eAddr = eAddr then _ else _) = _
    rw [if_pos rfl]
  have henc1 : (encode (.vstructVariant name fs) h).1 = hdrAddr := by
    rw [encode]
    rfl
  have henc2 : (encode (.vstructVariant name fs) h).2 = hF := by
    rw [encode]
    rfl
  have hklt : h.next < h1.next := by omega
  have hkage : h.next ≤ ka := by omega
  have hkalt : ka < h1.next := by omega
  refine ⟨?_, ?_, ?_, ?_, ?_, ?_⟩
  · rw [henc2, hFnext]; omega
  · rw [henc1]; omega
  · rw [henc1, henc2, hFnext]; omega
  · intro x hx
    rw [henc2] at hx ⊢
    rw [hFnext] at hx
    have hxa : x < h3O.next ∨ h4.next ≤ x := by
      rcases hx with hx | hx
      · exact Or.inl (by omega)
      · exact Or.inr (by omega)
    have hxk : x < h.next ∨ h1.next ≤ x := by
      rcases hx with hx | hx
      · exact Or.inl (by omega)
      · exact Or.inr (by omega)
    rw [hFstore x (by omega), fframe x hxa, h3Ostore x (by omega),
      h2Estore x (by omega), hkframe x hxk]
  · intro h2 hag hle
    rw [henc2] at hag hle
    rw [henc1]
    rw [hFnext] at hle
    have hagR : ∀ y, h.next ≤ y → y < h4.next → h2.store y = hF.store y := by
      intro y hy1 hy2
      exact hag y hy1 (by rw [hFnext]; omega)
    have hcellH : h2.store hdrAddr = some (.objN eAddr) := by
      rw [hagR hdrAddr (by omega) (by omega), hFstore hdrAddr (by omega),
        fframe hdrAddr (Or.inl (by omega))]
      exact h3Ocell
    have hcellE : h2.store eAddr = some (.objElem ka objAddr 0) := by
      rw [hagR eAddr (by omega) (by omega)]
      exact hFcell
    obtain ⟨hps, -⟩ := hkdec h2 (by
      intro y hy1 hy2
      replace hy2 : y < h1.next := hy2
      rw [hagR y (by omega) (by omega), hFstore y (by omega),
        fframe y (Or.inl (by omega)), h3Ostore y (by omega),
        h2Estore y (by omega)])
    have hagA : agreesOn h3O.next h4.next h4 h2 := by
      intro y hy1 hy2
      rw [hagR y (by omega) (by omega), hFstore y (by omega)]
    obtain ⟨kvs, hkvs, hdf⟩ := fdec h2 hagA (by omega)
    rw [decode, getCell, hcellH]
    simp only [bind, Except.bind]
    rw [getCell, hcellE]
    simp only [bind, Except.bind]
    rw [hps]
    simp only [bind, Except.bind]
    rw [decodeVariantPayload_eq h2 name objAddr vars _ hf, variantPayloadDecoder]
    rw [faddr]
    simp [bind, Except.bind, hkvs, hdf]
  · intro h2 hag
    rw [henc2] at hag
    rw [henc1]
    have hcellH : h2.store hdrAddr = some (.objN eAddr) := by
      rw [hag hdrAddr (by omega) (by rw [hFnext]; omega),
        hFstore hdrAddr (by omega), fframe hdrAddr (Or.inl (by omega))]
      exact h3Ocell
    simp only [encodesNull, Bool.false_eq_true, if_false]
    exact ⟨_, hcellH, by simp⟩

/-- Size facts used by the round-trip induction. -/
theorem sizeOf_snd_lt {l : List (String × HVal)} {w : HVal}
    (hw : w ∈ l.map Prod.snd) : sizeOf w < sizeOf l := by
  obtain ⟨p, hp, rfl⟩ := List.mem_map.mp hw
  have h1 := List.sizeOf_lt_of_mem hp
  obtain ⟨a, b⟩ := p
  simp only [Prod.mk.sizeOf_spec] at h1
  show sizeOf b < sizeOf l
  omega

theorem sizeOf_entry_fst_lt {l : List (HVal × HVal)} {p : HVal × HVal}
    (hp : p ∈ l) : sizeOf p.1 < sizeOf l := by
  have h1 := List.sizeOf_lt_of_mem hp
  obtain ⟨a, b⟩ := p
  simp only [Prod.mk.sizeOf_spec] at h1
  show sizeOf a < sizeOf l
  omega

theorem sizeOf_entry_snd_lt {l : List (HVal × HVal)} {p : HVal × HVal}
    (hp : p ∈ l) : sizeOf p.2 < sizeOf l := by
  have h1 := List.sizeOf_lt_of_mem hp
  obtain ⟨a, b⟩ := p
  simp only [Prod.mk.sizeOf_spec] at h1
  show sizeOf b < sizeOf l
  omega

/-- The round-trip invariant holds of every well-typed host value, by
strong induction on the size of the value. -/
theorem encInv_of_hasTy : ∀ (n : Nat) (v : HVal) (t : HTy),
    sizeOf v ≤ n → HasTy v t → EncInv v t := by
  intro n
  induction n with
  | zero =>
      intro v t hsz _
      exfalso
      cases v <;> simp_arith at hsz
  | succ n ih =>
      intro v t hsz hty
      cases hty with
      | bool b => exact encInv_vbool b
      | int i h1 h2 => exact encInv_vint i
      | float f hfin => exact encInv_vfloat f
      | str s => exact encInv_vstr s
      | char c => exact encInv_vchar c
      | unit => exact encInv_vunit
      | none t => exact encInv_vnone t
      | some v t hv hn =>
          refine encInv_vsome v t (ih v t ?_ hv) hn
          simp only [HVal.vsome.sizeOf_spec] at hsz
          omega
      | newtype v t hv =>
          refine encInv_vnewtype v t (ih v t ?_ hv)
          simp only [HVal.vnewtype.sizeOf_spec] at hsz
          omega
      | unitVariant name vars hfv => exact encInv_vunitVariant name vars hfv
      | newtypeVariant name v t vars hfv hv =>
          refine encInv_vnewtypeVariant name v t vars hfv (ih v t ?_ hv)
          simp only [HVal.vnewtypeVariant.sizeOf_spec] at hsz
          omega
      | tupleVariant name vs ts vars hfv hF =>
          refine encInv_vtupleVariant name vs ts vars hfv
            (forall₂_imp_mem hF (fun w hw t2 ht2 => ih w t2 ?_ ht2))
          have := List.sizeOf_lt_of_mem hw
          simp only [HVal.vtupleVariant.sizeOf_spec] at hsz
          omega
      | structVariant name fs fts vars hfv hnames hF =>
          refine encInv_vstructVariant name fs fts vars hfv hnames
            (forall₂_imp_mem hF (fun w hw t2 ht2 => ih w t2 ?_ ht2))
          have := sizeOf_snd_lt hw
          simp only [HVal.vstructVariant.sizeOf_spec] at hsz
          omega
      | seq vs t hF =>
          refine encInv_vseq vs t
            (fun w hw => ih w t ?_ (forall_mem_of_forall₂_replicate hF w hw))
          have := List.sizeOf_lt_of_mem hw
          simp only [HVal.vseq.sizeOf_spec] at hsz
          omega
      | tuple vs ts hF =>
          refine encInv_vseq_tuple vs ts
            (forall₂_imp_mem hF (fun w hw t2 ht2 => ih w t2 ?_ ht2))
          have := List.sizeOf_lt_of_mem hw
          simp only [HVal.vseq.sizeOf_spec] at hsz
          omega
      | map entries tk tv hFk hFv =>
          refine encInv_vmap entries tk tv
            (fun p hp => ih (Prod.fst p) tk ?_
              (forall_mem_of_forall₂_replicate hFk (Prod.fst p)
                (List.mem_map_of_mem Prod.fst hp)))
            (fun p hp => ih (Prod.snd p) tv ?_
              (forall_mem_of_forall₂_replicate hFv (Prod.snd p)
                (List.mem_map_of_mem Prod.snd hp)))
          · have := sizeOf_entry_fst_lt hp
            simp only [HVal.vmap.sizeOf_spec] at hsz
            omega
          · have := sizeOf_entry_snd_lt hp
            simp only [HVal.vmap.sizeOf_spec] at hsz
            omega
      | struct fs fts hnames hF =>
          refine encInv_vstruct fs fts hnames
            (forall₂_imp_mem hF (fun w hw t2 ht2 => ih w t2 ?_ ht2))
          have := sizeOf_snd_lt hw
          simp only [HVal.vstruct.sizeOf_spec] at hsz
          omega
      | set vs t hF =>
          refine encInv_vset vs t
            (fun w hw => ih w t ?_ (forall_mem_of_forall₂_replicate hF w hw))
          have := List.sizeOf_lt_of_mem hw
          simp only [HVal.vset.sizeOf_spec] at hsz
          omega

/-- The round-trip invariant, packaged. -/
theorem encInv_total (v : HVal) (t : HTy) (hty : HasTy v t) : EncInv v t :=
  encInv_of_hasTy (sizeOf v) v t (le_refl _) hty

/-- Null-encoding values all store exactly the null node. -/
theorem encode_null_node : ∀ (n : Nat) (v : HVal), sizeOf v ≤ n →
    encodesNull v = true → ∀ h : Heap, encode v h = h.storeNode .nullN := by
  intro n
  induction n with
  | zero =>
      intro v hsz _
      exfalso
      cases v <;> simp_arith at hsz
  | succ n ih =>
      intro v hsz hn h
      cases v with
      | vunit => rw [encode]
      | vnone => rw [encode]
      | vsome w =>
          have hw : encodesNull w = true := by simpa [encodesNull] using hn
          rw [encode]
          exact ih w (by simp only [HVal.vsome.sizeOf_spec] at hsz; omega) hw h
      | vnewtype w =>
          have hw : encodesNull w = true := by simpa [encodesNull] using hn
          rw [encode]
          exact ih w (by simp only [HVal.vnewtype.sizeOf_spec] at hsz; omega) hw h
      | vbool b => simp [encodesNull] at hn
      | vint i => simp [encodesNull] at hn
      | vfloat f => simp [encodesNull] at hn
      | vstr s2 => simp [encodesNull] at hn
      | vchar c => simp [encodesNull] at hn
      | vunitVariant name => simp [encodesNull] at hn
      | vnewtypeVariant name w => simp [encodesNull] at hn
      | vtupleVariant name ws => simp [encodesNull] at hn
      | vstructVariant name ws => simp [encodesNull] at hn
      | vseq ws => simp [encodesNull] at hn
      | vmap es => simp [encodesNull] at hn
      | vstruct ws => simp [encodesNull] at hn
      | vset ws => simp [encodesNull] at hn

/-- C10: `serialize_none`, `serialize_unit` and `serialize_some` around a
null-encoding payload all store the identical null node
(`serialize_some` forwards to the payload with no marker);
`deserialize_option` maps the null node to `None`; hence `Some(())`
decodes back as `None`. -/
theorem some_unit_lossy :
    (∀ v : HVal, encodesNull v = true →
      ∀ h : Heap, encode v h = h.storeNode .nullN)
    ∧ (∀ (h2 : Heap) (t : HTy) (a : Nat), h2.store a = some .nullN →
        decode h2 (.topt t) a = .ok .vnone)
    ∧ ∀ h : Heap,
        decode (encode (.vsome .vunit) h).2 (.topt .tunit)
          (encode (.vsome .vunit) h).1 = .ok .vnone := by
  refine ⟨fun v hv h => encode_null_node (sizeOf v) v (le_refl _) hv h, ?_, ?_⟩
  · intro h2 t a hcell
    rw [decode, getCell, hcell]
    simp [bind, Except.bind]
  · intro h
    have he : encode (.vsome .vunit) h = h.storeNode .nullN :=
      encode_null_node (sizeOf (HVal.vsome .vunit)) _ (le_refl _) rfl h
    rw [he]
    have hcell : (h.storeNode Node.nullN).2.store (h.storeNode Node.nullN).1
        = some .nullN := by
      show (if h.next = h.next then _ else _) = _
      rw [if_pos rfl]
    rw [decode, getCell, hcell]
    simp [bind, Except.bind]

/-- C10 witness: the first conjunct applied to `Some(())` on the empty
heap. -/
theorem some_unit_lossy_witness :
    encodesNull (.vsome .vunit) = true
    ∧ encode (.vsome .vunit) ⟨0, fun _ => none⟩
      = Heap.storeNode ⟨0, fun _ => none⟩ .nullN :=
  ⟨rfl, some_unit_lossy.1 (.vsome .vunit) rfl ⟨0, fun _ => none⟩⟩

/-- C1 counterexample: `Some(())` is a nested composition of `Some` and
unit, uses no bytes and no unknown-length sequence, yet decoding its
encoding yields `None`, not `Some(())`. -/
theorem serde_roundtrip_counterexample :
    decode (encode (.vsome .vunit) ⟨0, fun _ => none⟩).2 (.topt .tunit)
        (encode (.vsome .vunit) ⟨0, fun _ => none⟩).1 = .ok .vnone
    ∧ (Except.ok HVal.vnone : Except SerdeError HVal) ≠ .ok (.vsome .vunit) := by
  refine ⟨some_unit_lossy.2.2 ⟨0, fun _ => none⟩, ?_⟩
  simp

/-- C1 (amended): for every host value of the claimed shapes — excluding
`Some` wrapped directly around a null-encoding value (unit, `None`, or a
transparent wrapper of such), whose encoding is the null node and which
`deserialize_option` therefore reads back as `None` — decoding the
address produced by encoding the value from any heap returns the value:
`from_instance(to_instance(v)) == v`. -/
theorem serde_roundtrip (v : HVal) (t : HTy) (hty : HasTy v t) (h : Heap) :
    decode (encode v h).2 t (encode v h).1 = .ok v :=
  (encInv_total v t hty h).dec (encode v h).2 (fun _ _ _ => rfl) (le_refl _)

/-- C1 witness: `Some(true)` round-trips on the empty heap. -/
theorem serde_roundtrip_witness :
    HasTy (.vsome (.vbool true)) (.topt .tbool)
    ∧ decode (encode (.vsome (.vbool true)) ⟨0, fun _ => none⟩).2 (.topt .tbool)
        (encode (.vsome (.vbool true)) ⟨0, fun _ => none⟩).1
      = .ok (.vsome (.vbool true)) :=
  ⟨.some _ _ (.bool true) rfl,
    serde_roundtrip _ _ (.some _ _ (.bool true) rfl) ⟨0, fun _ => none⟩⟩

/-- C9: `serialize_u64` goes through `v as i64` and stores a number(int)
node: the payload is the wraparound cast (congruent to the value modulo
`2^64`, inside the `i64` range), every `u64` encodes without error, and
any value above `i64::MAX` stores a negative payload. -/
theorem u64_wraparound (v : Nat) (hv : v < 2 ^ 64) :
    ∀ h : Heap,
    (serialize_u64 v h).2.store (serialize_u64 v h).1
      = some (.numInt (wrap64 (v : Int)))
    ∧ wrap64 (v : Int) % 2 ^ 64 = (v : Int) % 2 ^ 64
    ∧ i64Min ≤ wrap64 (v : Int) ∧ wrap64 (v : Int) ≤ i64Max
    ∧ (i64Max < (v : Int) → wrap64 (v : Int) < 0) := by
  intro h
  refine ⟨?_, ?_, ?_, ?_, ?_⟩
  · show (if h.next = h.next then _ else _) = _
    rw [if_pos rfl]
  · simp only [wrap64]
    omega
  · simp only [wrap64, i64Min]
    omega
  · simp only [wrap64, i64Max]
    omega
  · intro hgt
    simp only [i64Max] at hgt
    simp only [wrap64]
    omega

/-- C9 witness: `2^63` exceeds `i64::MAX` and wraps to `-2^63`. -/
theorem u64_wraparound_witness :
    (2 ^ 63 : Nat) < 2 ^ 64
    ∧ ((serialize_u64 (2 ^ 63) ⟨0, fun _ => none⟩).2.store
          (serialize_u64 (2 ^ 63) ⟨0, fun _ => none⟩).1
        = some (.numInt (wrap64 ((2 ^ 63 : Nat) : Int)))
      ∧ wrap64 ((2 ^ 63 : Nat) : Int) % 2 ^ 64 = (((2 ^ 63 : Nat) : Int)) % 2 ^ 64
      ∧ i64Min ≤ wrap64 ((2 ^ 63 : Nat) : Int)
        ∧ wrap64 ((2 ^ 63 : Nat) : Int) ≤ i64Max
      ∧ (i64Max < ((2 ^ 63 : Nat) : Int) → wrap64 ((2 ^ 63 : Nat) : Int) < 0)) :=
  ⟨by norm_num, u64_wraparound (2 ^ 63) (by norm_num) ⟨0, fun _ => none⟩⟩

/-- Equality of guest states on the readable region: the bump pointer and
every cell below it. -/
def readableEq (s1 s2 : Heap) : Prop :=
  s1.next = s2.next ∧ ∀ y, y < s1.next → s1.store y = s2.store y

/-- Modelled from the spec: the wasm guest contract behind the exports
`Policy::evaluate` calls. The guest module is compiled OPA policy code and
is not part of this repository; the spec describes it as a deterministic
module that allocates only by bumping `heap_ptr` (never writing below the
current pointer, never moving it back) and whose behaviour depends only
on the initialized memory below the pointer. Each export is a pure
function of the guest heap, with one frame law and one extensionality law
per export. -/
structure Guest where
  toInstance : Value → Heap → Nat × Heap
  evalCtxNew : Heap → Nat × Heap
  evalCtxSetInput : Nat → Nat → Heap → Heap
  evalCtxSetData : Nat → Nat → Heap → Heap
  evalRun : Nat → Heap → Heap
  evalCtxGetResult : Nat → Heap → Nat
  fromInstance : Nat → Heap → Except SerdeError Value
  toInstance_next : ∀ v s, s.next ≤ (toInstance v s).2.next
  toInstance_frame : ∀ v s y, y < s.next → (toInstance v s).2.store y = s.store y
  toInstance_ext : ∀ v s1 s2, readableEq s1 s2 →
    (toInstance v s1).1 = (toInstance v s2).1
    ∧ readableEq (toInstance v s1).2 (toInstance v s2).2
  ctxNew_next : ∀ s, s.next ≤ (evalCtxNew s).2.next
  ctxNew_frame : ∀ s y, y < s.next → (evalCtxNew s).2.store y = s.store y
  ctxNew_ext : ∀ s1 s2, readableEq s1 s2 →
    (evalCtxNew s1).1 = (evalCtxNew s2).1
    ∧ readableEq (evalCtxNew s1).2 (evalCtxNew s2).2
  setInput_next : ∀ c i s, s.next ≤ (evalCtxSetInput c i s).next
  setInput_frame : ∀ c i s y, y < s.next →
    (evalCtxSetInput c i s).store y = s.store y
  setInput_ext : ∀ c i s1 s2, readableEq s1 s2 →
    readableEq (evalCtxSetInput c i s1) (evalCtxSetInput c i s2)
  setData_next : ∀ c d s, s.next ≤ (evalCtxSetData c d s).next
  setData_frame : ∀ c d s y, y < s.next →
    (evalCtxSetData c d s).store y = s.store y
  setData_ext : ∀ c d s1 s2, readableEq s1 s2 →
    readableEq (evalCtxSetData c d s1) (evalCtxSetData c d s2)
  eval_next : ∀ c s, s.next ≤ (evalRun c s).next
  eval_frame : ∀ c s y, y < s.next → (evalRun c s).store y = s.store y
  eval_ext : ∀ c s1 s2, readableEq s1 s2 →
    readableEq (evalRun c s1) (evalRun c s2)
  getResult_ext : ∀ c s1 s2, readableEq s1 s2 →
    evalCtxGetResult c s1 = evalCtxGetResult c s2
  fromInstance_ext : ∀ a s1 s2, readableEq s1 s2 →
    fromInstance a s1 = fromInstance a s2

/-- The host-side fields of `Policy` that `evaluate` touches, with the
guest heap and `heap_top` in place of the wasm instance. -/
structure PolicyState where
  heap : Heap
  top : Nat
  data_addr : Nat
  data_heap_ptr : Nat
  data_heap_top : Nat

/-- `Policy::evaluate`: reset `heap_ptr`/`heap_top` to the data
checkpoint, serialize the input, build the context, set input and data,
run `eval`, read the result address and deserialize it. -/
def Policy.evaluate (G : Guest) (input : Value) (P : PolicyState) :
    Except SerdeError Value × PolicyState :=
  let s0 : Heap := ⟨P.data_heap_ptr, P.heap.store⟩
  let p1 := G.toInstance input s0
  let p2 := G.evalCtxNew p1.2
  let s3 := G.evalCtxSetInput p2.1 p1.1 p2.2
  let s4 := G.evalCtxSetData p2.1 P.data_addr s3
  let s5 := G.evalRun p2.1 s4
  let result_addr := G.evalCtxGetResult p2.1 s5
  (G.fromInstance result_addr s5,
    { P with heap := s5, top := P.data_heap_top })

/-- C6: `Policy::evaluate` on the same input is idempotent: under the
guest contract, the second call returns the same result as the first, the
resets at the start of both calls restore `heap_ptr`/`heap_top` to the
same checkpoint (the `data_heap_ptr`/`data_heap_top` fields, which
`evaluate` never changes), and `heap_ptr`/`heap_top` are equal after the
two calls. -/
theorem evaluate_idempotent (G : Guest) (input : Value) (P : PolicyState) :
    (Policy.evaluate G input (Policy.evaluate G input P).2).1
      = (Policy.evaluate G input P).1
    ∧ (Policy.evaluate G input (Policy.evaluate G input P).2).2.heap.next
      = (Policy.evaluate G input P).2.heap.next
    ∧ (Policy.evaluate G input (Policy.evaluate G input P).2).2.top
      = (Policy.evaluate G input P).2.top
    ∧ (Policy.evaluate G input P).2.data_heap_ptr = P.data_heap_ptr
    ∧ (Policy.evaluate G input P).2.data_heap_top = P.data_heap_top := by
  set s0 : Heap := ⟨P.data_heap_ptr, P.heap.store⟩ with s0_def
  set p1 := G.toInstance input s0 with p1_def
  set p2 := G.evalCtxNew p1.2 with p2_def
  set s3 := G.evalCtxSetInput p2.1 p1.1 p2.2 with s3_def
  set s4 := G.evalCtxSetData p2.1 P.data_addr s3 with s4_def
  set s5 := G.evalRun p2.1 s4 with s5_def
  set r0 : Heap := ⟨P.data_heap_ptr, s5.store⟩ with r0_def
  set q1 := G.toInstance input r0 with q1_def
  set q2 := G.evalCtxNew q1.2 with q2_def
  set r3 := G.evalCtxSetInput q2.1 q1.1 q2.2 with r3_def
  set r4 := G.evalCtxSetData q2.1 P.data_addr r3 with r4_def
  set r5 := G.evalRun q2.1 r4 with r5_def
  have hP1run : Policy.evaluate G input P
      = (G.fromInstance (G.evalCtxGetResult p2.1 s5) s5,
          { P with heap := s5, top := P.data_heap_top }) := rfl
  have hP2run : Policy.evaluate G input
        ({ P with heap := s5, top := P.data_heap_top } : PolicyState)
      = (G.fromInstance (G.evalCtxGetResult q2.1 r5) r5,
          { P with heap := r5, top := P.data_heap_top }) := rfl
  have hs0next : s0.next = P.data_heap_ptr := rfl
  have hmono1 : s0.next ≤ p1.2.next := G.toInstance_next input s0
  have hmono2 : p1.2.next ≤ p2.2.next := G.ctxNew_next p1.2
  have hmono3 : p2.2.next ≤ s3.next := G.setInput_next p2.1 p1.1 p2.2
  have hmono4 : s3.next ≤ s4.next := G.setData_next p2.1 P.data_addr s3
  have hbelow : ∀ y, y < P.data_heap_ptr → s5.store y = P.heap.store y := by
    intro y hy
    rw [s5_def, G.eval_frame p2.1 s4 y (by omega),
      s4_def, G.setData_frame p2.1 P.data_addr s3 y (by omega),
      s3_def, G.setInput_frame p2.1 p1.1 p2.2 y (by omega),
      p2_def, G.ctxNew_frame p1.2 y (by omega),
      p1_def, G.toInstance_frame input s0 y (by omega)]
  have hre : readableEq r0 s0 := ⟨rfl, fun y hy => hbelow y hy⟩
  obtain ⟨ht1, ht2⟩ := G.toInstance_ext input r0 s0 hre
  obtain ⟨hc1, hc2⟩ := G.ctxNew_ext q1.2 p1.2 ht2
  have hi : readableEq r3 s3 := by
    rw [r3_def, s3_def, hc1, ht1]
    exact G.setInput_ext p2.1 p1.1 q2.2 p2.2 hc2
  have hd : readableEq r4 s4 := by
    rw [r4_def, s4_def, hc1]
    exact G.setData_ext p2.1 P.data_addr r3 s3 hi
  have he : readableEq r5 s5 := by
    rw [r5_def, s5_def, hc1]
    exact G.eval_ext p2.1 r4 s4 hd
  have hr : G.evalCtxGetResult q2.1 r5 = G.evalCtxGetResult p2.1 s5 := by
    rw [hc1]
    exact G.getResult_ext p2.1 r5 s5 he
  have hf : G.fromInstance (G.evalCtxGetResult q2.1 r5) r5
      = G.fromInstance (G.evalCtxGetResult p2.1 s5) s5 := by
    rw [hr]
    exact G.fromInstance_ext (G.evalCtxGetResult p2.1 s5) r5 s5 he
  rw [hP1run]
  refine ⟨?_, ?_, ?_, rfl, rfl⟩
  · show (Policy.evaluate G input
        ({ P with heap := s5, top := P.data_heap_top } : PolicyState)).1
      = G.fromInstance (G.evalCtxGetResult p2.1 s5) s5
    rw [hP2run]
    exact hf
  · show (Policy.evaluate G input
        ({ P with heap := s5, top := P.data_heap_top } : PolicyState)).2.heap.next
      = s5.next
    rw [hP2run]
    exact he.1
  · show (Policy.evaluate G input
        ({ P with heap := s5, top := P.data_heap_top } : PolicyState)).2.top
      = P.data_heap_top
    rw [hP2run]

/-- A concrete guest satisfying the contract: every export is the
identity on the heap. -/
def trivialGuest : Guest where
  toInstance := fun _ s => (0, s)
  evalCtxNew := fun s => (0, s)
  evalCtxSetInput := fun _ _ s => s
  evalCtxSetData := fun _ _ s => s
  evalRun := fun _ s => s
  evalCtxGetResult := fun _ _ => 0
  fromInstance := fun _ _ => .ok .null
  toInstance_next := fun _ _ => le_refl _
  toInstance_frame := fun _ _ _ _ => rfl
  toInstance_ext := fun _ _ _ h => ⟨rfl, h⟩
  ctxNew_next := fun _ => le_refl _
  ctxNew_frame := fun _ _ _ => rfl
  ctxNew_ext := fun _ _ h => ⟨rfl, h⟩
  setInput_next := fun _ _ _ => le_refl _
  setInput_frame := fun _ _ _ _ _ => rfl
  setInput_ext := fun _ _ _ _ h => h
  setData_next := fun _ _ _ => le_refl _
  setData_frame := fun _ _ _ _ _ => rfl
  setData_ext := fun _ _ _ _ h => h
  eval_next := fun _ _ => le_refl _
  eval_frame := fun _ _ _ _ => rfl
  eval_ext := fun _ _ _ h => h
  getResult_ext := fun _ _ _ _ => rfl
  fromInstance_ext := fun _ _ _ _ => rfl

/-- C6 witness: the idempotence theorem applied to a concrete guest and
policy state. -/
theorem evaluate_idempotent_witness :
    (Policy.evaluate trivialGuest .null
        (Policy.evaluate trivialGuest .null
          ⟨⟨0, fun _ => none⟩, 0, 0, 0, 0⟩).2).1
      = (Policy.evaluate trivialGuest .null
          ⟨⟨0, fun _ => none⟩, 0, 0, 0, 0⟩).1 :=
  (evaluate_idempotent trivialGuest .null ⟨⟨0, fun _ => none⟩, 0, 0, 0, 0⟩).1

/-- C4 amended witness: the success branch at the one-entry object
`{"plus": 1}`. -/
theorem builtins_table_witness :
    (innerNew ([(("plus" : String), (1 : Int))].map (fun p => (p.1, .number (.int p.2))))
        = .ok ([(("plus" : String), (1 : Int))].map (fun p => (wrap32 p.2, p.1))))
    ∧ (([(("plus" : String), (1 : Int))].map (fun p => (wrap32 p.2, p.1))).map Prod.snd
        = [(("plus" : String), (1 : Int))].map Prod.fst) :=
  builtins_table.2 [("plus", 1)] (by simp [BUILTIN_NAMES]) (by simp)

end Opa
